/-
Verification of the invest-sim portfolio simulation toolkit.

This file gives a shallow embedding, in Lean 4, of the core numeric code of
the repository (risk metrics, return-distribution sampler, rebalancing
strategies, historical backtester, forward Monte Carlo simulator, and the
option margin simulator), and proves or refutes the frozen specification
claims about it.

Modelling conventions:
* Python/numpy floats are modelled as exact numbers: `ℚ` where the code is
  purely rational arithmetic (risk metrics), `ℝ` where the code computes
  square roots, logarithms, exponentials or the normal CDF.
* numpy arrays indexed by asset become functions `Fin (n+1) → ℝ` (configs
  validate that at least one asset is present); time series become lists or
  functions on `ℕ`.
* Randomness: every numpy generator draw is read off an explicit stream
  (a function from draw index to value) that the embedding threads exactly
  in the order the source consumes entropy.  A seeded `default_rng(seed)`
  is a pure function of the seed, so a stream models it faithfully.
* Fallible code (Python `raise`) returns `Option`/`Except`.
-/

import Mathlib

set_option maxHeartbeats 1000000

noncomputable section

namespace InvestSim

/-! ## Risk metrics (`invest_sim/backend/risk/risk_metrics.py`)

The functions `compute_var` and `compute_cvar` are pure rational arithmetic
(quantile with linear interpolation, filtering, mean), so they are embedded
over `ℚ` and stay fully executable. `np.quantile` raising on an empty input
and the `0 < level < 1` guard are modelled by returning `none`. -/

namespace Risk

/-- Embedding of `np.quantile(samples, level)` with the default linear
interpolation: sort ascending, take the value at fractional index
`level * (n - 1)`, interpolating linearly between the two neighbouring
order statistics. -/
def quantile (samples : List ℚ) (level : ℚ) : ℚ :=
  let ss := List.insertionSort (· ≤ ·) samples
  let n := ss.length
  let h : ℚ := level * ((n : ℚ) - 1)
  let i : ℕ := (Int.floor h).toNat
  let lo := ss.getD i 0
  let hi := ss.getD (i + 1) lo
  lo + (h - (i : ℚ)) * (hi - lo)

/-- Embedding of `compute_var` (risk_metrics.py lines 18-24):
`max(0, initial_balance - quantile(samples, level))`, failing when the level
is out of `(0,1)` or the sample array is empty. -/
def compute_var (finalValues : List ℚ) (initialBalance level : ℚ) : Option ℚ :=
  if finalValues = [] then none
  else if 0 < level ∧ level < 1 then
    some (max 0 (initialBalance - quantile finalValues level))
  else none

/-- Embedding of `compute_cvar` (risk_metrics.py lines 27-35): the mean of the
samples at or below the `level`-quantile (the quantile itself if that tail is
empty), turned into a loss against the initial balance. -/
def compute_cvar (finalValues : List ℚ) (initialBalance level : ℚ) : Option ℚ :=
  if finalValues = [] then none
  else if 0 < level ∧ level < 1 then
    let threshold := quantile finalValues level
    let tail := finalValues.filter (· ≤ threshold)
    let expectedTail := if tail.length ≠ 0 then tail.sum / (tail.length : ℚ) else threshold
    some (max 0 (initialBalance - expectedTail))
  else none

end Risk

/-! ## Return sampler (`invest_sim/backend/input_modeling/distributions.py`)

The function `generate_returns(dist_name, size, params, rng)` draws from a
named distribution. The numpy generator is modelled as three draw streams
(standard-normal draws, chi-squared draws, integer draws) plus a cursor
recording how many draws of each kind have been consumed; every branch
advances the cursor exactly as the source consumes entropy.
`rng.normal(loc, scale)` is modelled as `loc + scale * z` with `z` the next
standard-normal draw. Python `raise ValueError` becomes `Except.error`. -/

namespace Dist

/-- The parameter dictionary handed to `generate_returns`. Only the keys the
function reads are modelled; each is present (`some`) or absent (`none`),
mirroring `"key" in params` / `params.get(key, default)`. -/
structure Params where
  mean : Option ℝ := none
  vol : Option ℝ := none
  df : Option ℝ := none
  scale : Option ℝ := none
  historical_returns : Option (List ℝ) := none

/-- Draw streams of a seeded `np.random` generator: the k-th standard normal
draw, the k-th chi-squared draw, and the k-th integer draw. A generator
seeded with a fixed seed is a pure function of the seed, so its entire
output is such a family of streams. -/
structure RngStreams where
  gauss : ℕ → ℝ
  chi : ℕ → ℝ
  ints : ℕ → ℕ

/-- Cursor into the three draw streams of `RngStreams`. -/
structure RngState where
  gauss : ℕ := 0
  chi : ℕ := 0
  ints : ℕ := 0

/-- Tests whether an `Except` computation failed. -/
def isErr {ε α : Type} : Except ε α → Bool
  | .error _ => true
  | .ok _ => false

/-- Embedding of `generate_returns` (distributions.py lines 33-69).
`normal` requires `mean` and `vol`; `student_t` defaults `df` to 5 (rejecting
non-positive values), `scale` to `vol` then `0.02`, `mean` to 0, and builds
`mean + scale * z / sqrt(chi2/df)`; `empirical_bootstrap` requires a
non-empty `historical_returns` list and gathers uniformly-drawn indices;
any other name is rejected. -/
def generate_returns (dist_name : String) (size : ℕ) (p : Params)
    (rng : RngStreams) (st : RngState) : Except String (List ℝ × RngState) :=
  if dist_name = "normal" then
    match p.mean, p.vol with
    | some mean, some vol =>
        .ok ((List.range size).map (fun k => mean + vol * rng.gauss (st.gauss + k)),
          { st with gauss := st.gauss + size })
    | _, _ => .error "normal distribution requires mean and vol"
  else if dist_name = "student_t" then
    let df := p.df.getD 5
    if df ≤ 0 then .error "student_t df must be positive"
    else
      let scale := p.scale.getD (p.vol.getD 0.02)
      let mean := p.mean.getD 0
      .ok ((List.range size).map (fun k =>
            mean + scale * (rng.gauss (st.gauss + k) / Real.sqrt (rng.chi (st.chi + k) / df))),
        { st with gauss := st.gauss + size, chi := st.chi + size })
  else if dist_name = "empirical_bootstrap" then
    match p.historical_returns with
    | none => .error "empirical_bootstrap requires historical_returns"
    | some hist =>
        if hist.length = 0 then .error "historical_returns must be non-empty"
        else
          .ok ((List.range size).map
              (fun k => hist.getD (rng.ints (st.ints + k) % hist.length) 0),
            { st with ints := st.ints + size })
  else .error "unsupported distribution"

/-- All-zero draw streams, used for concrete instantiations. -/
def zeroStreams : RngStreams := ⟨fun _ => 0, fun _ => 0, fun _ => 0⟩

end Dist

/-! ## Rebalancing strategies (`invest_sim/strategies.py`)

Each `Strategy` subclass captures a read-only context from the validated
`SimulationConfig` (base weights, per-asset volatilities, strategy options)
and exposes `rebalance(current_weights, covariance=None)`. Weight vectors
over `m = n+1` assets (configs validate at least one asset) are functions
`Fin (n+1) → ℝ`. A Python `raise` inside `_normalize` becomes `none`. -/

namespace Strat

/-- Embedding of `np.clip(x, 0.0, 1.0)` on one component. -/
def clip01 (x : ℝ) : ℝ := min (max x 0) 1

/-- Embedding of `Strategy._normalize` (strategies.py lines 30-36): divide by
the total (raising when the total is non-positive), then clip into `[0,1]`.
Note the source clips AFTER dividing. -/
def normalizeW {n : ℕ} (w : Fin (n + 1) → ℝ) : Option (Fin (n + 1) → ℝ) :=
  let total := ∑ i, w i
  if total ≤ 0 then none
  else some (fun i => clip01 (w i / total))

/-- Read-only context a strategy captures from `SimulationConfig`:
`base` is `config.normalized_weights`, `vols` the per-asset annual
volatilities, and the remaining fields the `StrategyConfig` options
(`rebalance_threshold` defaults to 0.05, the optional fields to `None`). -/
structure Ctx (n : ℕ) where
  base : Fin (n + 1) → ℝ
  vols : Fin (n + 1) → ℝ
  targetVolCfg : Option ℝ := none
  threshold : ℝ := 0.05
  reversionSpeedCfg : Option ℝ := none

/-- Pydantic-validated facts about a strategy context: normalized base
weights, positive volatilities (`volatility > 0`), positive configured
target volatility (`gt=0`), non-negative threshold (`ge=0`), reversion
speed in `[0,1]`. -/
def ValidCtx {n : ℕ} (c : Ctx n) : Prop :=
  (∀ i, 0 ≤ c.base i) ∧ (∑ i, c.base i = 1) ∧ (∀ i, 0 < c.vols i) ∧
  (∀ v, c.targetVolCfg = some v → 0 < v) ∧ 0 ≤ c.threshold ∧
  (∀ s, c.reversionSpeedCfg = some s → 0 ≤ s ∧ s ≤ 1)

/-- Implied volatility of the base allocation assuming uncorrelated assets:
`sqrt(sum((weight*vol)^2))` (strategies.py line 57 and line 72). -/
def impliedVol {n : ℕ} (c : Ctx n) : ℝ := Real.sqrt (∑ i, (c.base i * c.vols i) ^ 2)

/-- `config.strategy.target_volatility or implied` (strategies.py line 56):
Python `or` falls through on `None` and on `0.0`. -/
def targetVolatility {n : ℕ} (c : Ctx n) : ℝ :=
  match c.targetVolCfg with
  | none => impliedVol c
  | some v => if v = 0 then impliedVol c else v

/-- Embedding of `np.argmin`: first index attaining the minimum, via a fold
in index order that replaces only on strictly smaller values. -/
def argminFin {n : ℕ} (f : Fin (n + 1) → ℝ) : Fin (n + 1) :=
  (List.finRange (n + 1)).foldl (fun best i => if f i < f best then i else best) 0

/-- `FixedAllocationStrategy.rebalance`: always the base weights. -/
def fixedRebalance {n : ℕ} (c : Ctx n) (cur : Fin (n + 1) → ℝ) :
    Option (Fin (n + 1) → ℝ) :=
  some c.base

/-- `TargetRiskStrategy.rebalance` (strategies.py lines 65-81): if the base
allocation's implied volatility is within target, return base weights;
otherwise scale down by `target/current`, pour the positive residual into
the lowest-volatility asset, and normalize. -/
def targetRiskRebalance {n : ℕ} (c : Ctx n) (cur : Fin (n + 1) → ℝ) :
    Option (Fin (n + 1) → ℝ) :=
  let weights := c.base
  let currentVol := Real.sqrt (∑ i, (weights i * c.vols i) ^ 2)
  if currentVol ≤ targetVolatility c then some weights
  else
    let scale := targetVolatility c / currentVol
    let scaled := fun i => weights i * scale
    let residual := 1 - ∑ i, scaled i
    let adjusted :=
      if 0 < residual
      then Function.update scaled (argminFin c.vols) (scaled (argminFin c.vols) + residual)
      else scaled
    normalizeW adjusted

/-- `AdaptiveRebalanceStrategy.rebalance` (strategies.py lines 91-100): snap
back to base when any absolute deviation exceeds the threshold, otherwise
pass the current weights through unchanged. -/
def adaptiveRebalance {n : ℕ} (c : Ctx n) (cur : Fin (n + 1) → ℝ) :
    Option (Fin (n + 1) → ℝ) :=
  open Classical in
  if ∃ i, c.threshold < |cur i - c.base i| then some c.base else some cur

/-- `EqualWeightStrategy.rebalance`: `np.ones(n)/n` for `n` the length of the
input vector. -/
def equalWeightRebalance {n : ℕ} (cur : Fin (n + 1) → ℝ) :
    Option (Fin (n + 1) → ℝ) :=
  some (fun _ => 1 / ((n : ℝ) + 1))

/-- `RiskParityStrategy.rebalance`: weights proportional to inverse
volatility (floored at 1e-6), then `_normalize`. -/
def riskParityRebalance {n : ℕ} (c : Ctx n) (cur : Fin (n + 1) → ℝ) :
    Option (Fin (n + 1) → ℝ) :=
  let invVols := fun i => 1 / max (c.vols i) 1e-6
  let weights := fun i => invVols i / ∑ j, invVols j
  normalizeW weights

/-- `MinimumVarianceStrategy.rebalance` (strategies.py lines 138-159):
`w = (Σ⁻¹ 1) / (1ᵀ Σ⁻¹ 1)` then `_normalize`; equal weight when no
covariance is supplied or the inversion fails (`np.linalg.LinAlgError`
exactly when the matrix is singular). -/
def minVarianceRebalance {n : ℕ} (c : Ctx n)
    (covariance : Option (Matrix (Fin (n + 1)) (Fin (n + 1)) ℝ))
    (cur : Fin (n + 1) → ℝ) : Option (Fin (n + 1) → ℝ) :=
  open Classical in
  match covariance with
  | none => some (fun _ => 1 / ((n : ℝ) + 1))
  | some S =>
      if IsUnit S.det then
        let w := S⁻¹.mulVec (fun _ => 1)
        let w' := fun i => w i / ∑ j, w j
        normalizeW w'
      else some (fun _ => 1 / ((n : ℝ) + 1))

/-- `MomentumStrategy.rebalance`: the base weights through `_normalize`
(the lookback/factor parameters are accepted but unused). -/
def momentumRebalance {n : ℕ} (c : Ctx n) (cur : Fin (n + 1) → ℝ) :
    Option (Fin (n + 1) → ℝ) :=
  normalizeW c.base

/-- `MeanReversionStrategy.rebalance`: pull current weights toward base by
`reversion_speed` (defaulting to 0.3), then `_normalize`. -/
def meanReversionRebalance {n : ℕ} (c : Ctx n) (cur : Fin (n + 1) → ℝ) :
    Option (Fin (n + 1) → ℝ) :=
  let speed := c.reversionSpeedCfg.getD 0.3
  normalizeW (fun i => cur i + (c.base i - cur i) * speed)

/-- The eight strategy variants dispatched by `StrategyConfig.name`
(strategies.py `build_strategy`). -/
inductive StratName
  | fixed | target_risk | adaptive | equal_weight
  | risk_parity | min_variance | momentum | mean_reversion
  deriving DecidableEq

/-- Polymorphic `Strategy.rebalance(current_weights, covariance=None)`:
dispatch on the variant; only `min_variance` reads the covariance. -/
def rebalance {n : ℕ} (name : StratName) (c : Ctx n)
    (covariance : Option (Matrix (Fin (n + 1)) (Fin (n + 1)) ℝ))
    (cur : Fin (n + 1) → ℝ) : Option (Fin (n + 1) → ℝ) :=
  match name with
  | .fixed => fixedRebalance c cur
  | .target_risk => targetRiskRebalance c cur
  | .adaptive => adaptiveRebalance c cur
  | .equal_weight => equalWeightRebalance cur
  | .risk_parity => riskParityRebalance c cur
  | .min_variance => minVarianceRebalance c covariance cur
  | .momentum => momentumRebalance c cur
  | .mean_reversion => meanReversionRebalance c cur

/-- `Strategy.initWeights` models `Strategy.initialize()`: the base weights. -/
def initWeights {n : ℕ} (c : Ctx n) : Fin (n + 1) → ℝ := c.base

/-- A non-negative weight vector summing to one. -/
def GoodW {n : ℕ} (w : Fin (n + 1) → ℝ) : Prop :=
  (∀ i, 0 ≤ w i) ∧ ∑ i, w i = 1

end Strat

/-! ## Option margin simulator (`invest_sim/option_simulator.py`)

Black-Scholes helpers and `OptionMarginSimulator`. `np.erf` is modelled by
the Gauss error function defined through its integral, so `norm_cdf` is the
standard normal CDF. The generator draw `rng.normal(mean, vol)` at step `t`
of a path becomes `mean + vol * z k` for the k-th value of a standard-normal
stream `z`; `run_single_path(n)` consumes draws `0..n-1`, and path `j` of
`run_monte_carlo(N, T)` consumes draws `j*T..(j+1)*T-1` (the single shared
generator is drawn path by path). `np.nan` and `np.inf` sentinels stored in
the margin-ratio arrays are modelled by a three-constructor type. -/

namespace OptionSim

/-- Embedding of Python `str.lower()` on the ASCII strings used for option
types: lowercase each character. (`String.toLower` itself does not reduce in
the kernel, so the character map is spelled out.) -/
def pyLower (s : String) : String := ⟨s.data.map Char.toLower⟩

/-- Gauss error function `erf x = 2/sqrt(pi) * integral of exp(-t^2) over
0..x`, modelling `np.erf`. -/
def erf (x : ℝ) : ℝ := 2 / Real.sqrt Real.pi * ∫ t in (0 : ℝ)..x, Real.exp (-t ^ 2)

/-- Embedding of `norm_cdf` (option_simulator.py lines 4-5). -/
def norm_cdf (x : ℝ) : ℝ := 0.5 * (1 + erf (x / Real.sqrt 2))

/-- The clamped quantities and discriminants of `_bs_terms`
(option_simulator.py lines 12-21). -/
structure BSTerms where
  Ssafe : ℝ
  Ksafe : ℝ
  sigmaSafe : ℝ
  Tsafe : ℝ
  d1 : ℝ
  d2 : ℝ

/-- Embedding of `_bs_terms`. -/
def bsTerms (S K T r sigma : ℝ) : BSTerms :=
  let Ssafe := max S 1e-9
  let Ksafe := max K 1e-9
  let sigmaSafe := max sigma 1e-9
  let Tsafe := max T 1e-9
  let sqrtT := Real.sqrt Tsafe
  let d1 := (Real.log (Ssafe / Ksafe) + (r + 0.5 * sigmaSafe ^ 2) * Tsafe) / (sigmaSafe * sqrtT)
  ⟨Ssafe, Ksafe, sigmaSafe, Tsafe, d1, d1 - sigmaSafe * sqrtT⟩

/-- Embedding of `bs_price` (option_simulator.py lines 24-34): intrinsic
value when `T <= 0`, otherwise the Black-Scholes formula on the clamped
terms; any option type other than "call" (after lowercasing) prices as a
put, as in the source's `if/else`. -/
def bs_price (S K T r sigma : ℝ) (optionType : String) : ℝ :=
  let ot := pyLower optionType
  if T ≤ 0 then
    if ot = "call" then max (S - K) 0 else max (K - S) 0
  else
    let b := bsTerms S K T r sigma
    let discount := Real.exp (-r * b.Tsafe)
    if ot = "call" then b.Ssafe * norm_cdf b.d1 - b.Ksafe * discount * norm_cdf b.d2
    else b.Ksafe * discount * norm_cdf (-b.d2) - b.Ssafe * norm_cdf (-b.d1)

/-- Constructor parameters of `OptionMarginSimulator` (lines 63-96). -/
structure Config where
  option_type : String
  position_side : String
  strike : ℝ
  contract_size : ℝ
  spot0 : ℝ
  implied_vol : ℝ
  r : ℝ
  days_to_maturity : ℤ
  scan_risk_factor : ℝ
  min_margin_factor : ℝ
  maintenance_margin_rate : ℝ
  daily_return_mean : ℝ
  daily_return_vol : ℝ
  reference_equity : ℝ

/-- `self.option_type = option_type.lower()` applied in `__init__`. -/
def Config.optionTypeL (c : Config) : String := pyLower c.option_type

/-- `self.spot0 = max(spot0, 1e-6)` applied in `__init__`. -/
def Config.spot0c (c : Config) : ℝ := max c.spot0 1e-6

/-- Embedding of `_margin_requirements` (lines 101-109): SPAN-like margin
per contract for the given premium and spot. -/
def marginRequirements (c : Config) (premium spot : ℝ) : ℝ :=
  let otm := if c.optionTypeL = "call" then max (c.strike - spot) 0 else max (spot - c.strike) 0
  let scanPart := premium + c.scan_risk_factor * spot - otm
  let minPart := premium + c.min_margin_factor * spot
  max (max scanPart minPart) 0 * c.contract_size

/-- Embedding of `_option_price` (lines 111-124): Black-Scholes price with
remaining time `max(days_remaining/365, 0)` clamped below at `1e-9` and
volatility clamped below at `1e-6`. -/
def optionPrice (c : Config) (spot : ℝ) (daysRemaining : ℤ) : ℝ :=
  let Tremaining := max ((daysRemaining : ℝ) / 365) 0
  bs_price spot c.strike (max Tremaining 1e-9) c.r (max c.implied_vol 1e-6) c.optionTypeL

/-- `1 if self.position_side == "Long" else -1`. -/
def multiplier (c : Config) : ℝ := if c.position_side = "Long" then 1 else -1

/-- The step return `rng.normal(daily_return_mean, daily_return_vol)` read
off the standard-normal stream `z` at draw index `k`. -/
def rtn (c : Config) (z : ℕ → ℝ) (k : ℕ) : ℝ :=
  c.daily_return_mean + c.daily_return_vol * z k

/-- Spot recursion of `run_single_path` (lines 139-141):
`spot[t] = max(spot[t-1] * (1+rtn), 1e-6)` starting from the clamped spot. -/
def spotPath (c : Config) (z : ℕ → ℝ) : ℕ → ℝ
  | 0 => c.spot0c
  | t + 1 => max (spotPath c z t * (1 + rtn c z t)) 1e-6

/-- Option price along the single path (lines 143-145):
`_option_price(spot[t], days_to_maturity - t)`. -/
def pricePath (c : Config) (z : ℕ → ℝ) (t : ℕ) : ℝ :=
  optionPrice c (spotPath c z t) (c.days_to_maturity - (t : ℤ))

/-- Margin along the single path before any liquidation freeze (lines
146-149): the SPAN margin for short positions, zero otherwise. -/
def marginRaw (c : Config) (z : ℕ → ℝ) (t : ℕ) : ℝ :=
  if c.position_side = "Short" then marginRequirements c (pricePath c z t) (spotPath c z t)
  else 0

/-- Mark-to-market equity recursion before any liquidation freeze (lines
152-154): `equity[t] = equity[t-1] + (price[t]-price[t-1]) * contract_size
* multiplier`. -/
def equityRaw (c : Config) (z : ℕ → ℝ) : ℕ → ℝ
  | 0 => c.reference_equity
  | t + 1 => equityRaw c z t +
      (pricePath c z (t + 1) - pricePath c z t) * c.contract_size * multiplier c

/-- Values stored in a `margin_ratio` array cell: a finite float, `np.nan`,
or `np.inf`. -/
inductive MRatio
  | val (x : ℝ)
  | nan
  | inf
  deriving DecidableEq

/-- Margin ratio computed at a step of the short-position loop (line 158):
`equity/max(margin, 1e-8)` when the margin is positive, else `np.inf`. -/
def ratioRaw (c : Config) (z : ℕ → ℝ) (t : ℕ) : MRatio :=
  open Classical in
  if 0 < marginRaw c z t
  then .val (equityRaw c z t / max (marginRaw c z t) 1e-8)
  else .inf

/-- Liquidation test at step `t` (line 159): positive margin and recorded
margin ratio below the maintenance rate. -/
def trigger (c : Config) (z : ℕ → ℝ) (t : ℕ) : Prop :=
  0 < marginRaw c z t ∧
    equityRaw c z t / max (marginRaw c z t) 1e-8 < c.maintenance_margin_rate

/-- First step in `t0, t0+1, ...` (at most `fuel` candidates) satisfying the
liquidation test: the forward scan with `break` of the source loop. -/
def findTrigger (c : Config) (z : ℕ → ℝ) : ℕ → ℕ → Option ℕ
  | _, 0 => none
  | t, fuel + 1 =>
      open Classical in
      if trigger c z t then some t else findTrigger c z (t + 1) fuel

/-- `liquidation_day` reported by `run_single_path` over horizon `T`:
the first triggering step in `1..T` for a short position, else `None`
(the loop only tests liquidation in its `position_side == "Short"`
branch). -/
def liqDay (c : Config) (z : ℕ → ℝ) (T : ℕ) : Option ℕ :=
  if c.position_side = "Short" then findTrigger c z 1 T else none

/-- `equity_path` returned by `run_single_path`: the raw recursion, frozen
from the triggering step on (`equity_path[t:] = equity_path[t]` then
`break`; entries before `t` were already computed sequentially). -/
def equityPath (c : Config) (z : ℕ → ℝ) (T s : ℕ) : ℝ :=
  match liqDay c z T with
  | some t => equityRaw c z (min s t)
  | none => equityRaw c z s

/-- `margin_path` returned by `run_single_path`: precomputed raw margins
(lines 143-149), overwritten by `margin_path[t:] = margin_path[t]` at the
triggering step. -/
def marginPath (c : Config) (z : ℕ → ℝ) (T s : ℕ) : ℝ :=
  match liqDay c z T with
  | some t => marginRaw c z (min s t)
  | none => marginRaw c z s

/-- `margin_ratio_path` returned by `run_single_path`: initialised to
`np.nan`; for short positions the loop writes `ratioRaw` at `1..` until the
freeze, and after the loop index 0 is patched to `equity/max(margin,1e-8)`
when the step-0 margin is positive (lines 168-169); long positions keep
`np.nan` everywhere. -/
def ratioPath (c : Config) (z : ℕ → ℝ) (T s : ℕ) : MRatio :=
  open Classical in
  if c.position_side = "Short" then
    if s = 0 then
      if 0 < marginRaw c z 0
      then .val (equityRaw c z 0 / max (marginRaw c z 0) 1e-8)
      else .nan
    else
      match liqDay c z T with
      | some t => ratioRaw c z (min s t)
      | none => ratioRaw c z s
  else .nan

/-- Spot recursion of path `j` in `run_monte_carlo` (lines 196-199): same
update as the single path, drawing from the shared stream at offset `j*T`. -/
def mcSpot (c : Config) (z : ℕ → ℝ) (T j : ℕ) : ℕ → ℝ
  | 0 => c.spot0c
  | t + 1 => max (mcSpot c z T j t * (1 + rtn c z (j * T + t)) ) 1e-6

/-- Option price along Monte Carlo path `j` (lines 201-203). -/
def mcPrice (c : Config) (z : ℕ → ℝ) (T j : ℕ) (t : ℕ) : ℝ :=
  optionPrice c (mcSpot c z T j t) (c.days_to_maturity - (t : ℤ))

/-- Raw margin along Monte Carlo path `j` (computed inside the equity loop,
lines 211-214, for short positions; the long branch stores zero). -/
def mcMarginRaw (c : Config) (z : ℕ → ℝ) (T j : ℕ) (t : ℕ) : ℝ :=
  if c.position_side = "Short" then marginRequirements c (mcPrice c z T j t) (mcSpot c z T j t)
  else 0

/-- Raw equity recursion along Monte Carlo path `j` (lines 207-208). -/
def mcEquityRaw (c : Config) (z : ℕ → ℝ) (T j : ℕ) : ℕ → ℝ
  | 0 => c.reference_equity
  | t + 1 => mcEquityRaw c z T j t +
      (mcPrice c z T j (t + 1) - mcPrice c z T j t) * c.contract_size * multiplier c

/-- Margin ratio computed at a step of the Monte Carlo short branch (lines
216-219): same guarded division as the single path. -/
def mcRatioRaw (c : Config) (z : ℕ → ℝ) (T j : ℕ) (t : ℕ) : MRatio :=
  open Classical in
  if 0 < mcMarginRaw c z T j t
  then .val (mcEquityRaw c z T j t / max (mcMarginRaw c z T j t) 1e-8)
  else .inf

/-- Liquidation test along Monte Carlo path `j` (lines 221-225). -/
def mcTrigger (c : Config) (z : ℕ → ℝ) (T j : ℕ) (t : ℕ) : Prop :=
  0 < mcMarginRaw c z T j t ∧
    mcEquityRaw c z T j t / max (mcMarginRaw c z T j t) 1e-8 < c.maintenance_margin_rate

/-- First triggering step of Monte Carlo path `j`, as an option (the loop's
`liquidation_day == T` sentinel guard together with `break` makes the first
trigger the recorded one). -/
def mcFindTrigger (c : Config) (z : ℕ → ℝ) (T j : ℕ) : ℕ → ℕ → Option ℕ
  | _, 0 => none
  | t, fuel + 1 =>
      open Classical in
      if mcTrigger c z T j t then some t else mcFindTrigger c z T j (t + 1) fuel

/-- Triggering step of Monte Carlo path `j` over horizon `T`, before the
`T`-means-none encoding. -/
def mcLiqOpt (c : Config) (z : ℕ → ℝ) (T j : ℕ) : Option ℕ :=
  if c.position_side = "Short" then mcFindTrigger c z T j 1 T else none

/-- `liquidation_days[j]` reported by `run_monte_carlo` (line 190/205/226):
initialised to `T` and overwritten by the triggering step, so `T` encodes
"no liquidation". -/
def mcLiqDay (c : Config) (z : ℕ → ℝ) (T j : ℕ) : ℕ :=
  (mcLiqOpt c z T j).getD T

/-- `equity_paths[j]` of `run_monte_carlo`: frozen from the triggering step
(`equity_paths[j, t+1:] = equity_paths[j, t]`, so index `t` itself keeps the
loop value, which the `min` form also gives). -/
def mcEquity (c : Config) (z : ℕ → ℝ) (T j s : ℕ) : ℝ :=
  match mcLiqOpt c z T j with
  | some t => mcEquityRaw c z T j (min s t)
  | none => mcEquityRaw c z T j s

/-- `margin_paths[j]` of `run_monte_carlo`: index 0 keeps the array's zero
initialisation (the loop runs from `t = 1` only), later indices hold the
loop value frozen from the triggering step. -/
def mcMargin (c : Config) (z : ℕ → ℝ) (T j s : ℕ) : ℝ :=
  if s = 0 then 0
  else
    match mcLiqOpt c z T j with
    | some t => mcMarginRaw c z T j (min s t)
    | none => mcMarginRaw c z T j s

/-- `margin_ratio_paths[j]` of `run_monte_carlo`: initialised to `np.inf`
(index 0 is never written), the short branch writes the guarded ratio frozen
from the triggering step, the long branch writes `np.inf`. -/
def mcRatio (c : Config) (z : ℕ → ℝ) (T j s : ℕ) : MRatio :=
  if s = 0 then .inf
  else if c.position_side = "Short" then
    match mcLiqOpt c z T j with
    | some t => mcRatioRaw c z T j (min s t)
    | none => mcRatioRaw c z T j s
  else .inf

/-- Configuration used for the claim-C4 counterexample: an at-the-money call
(strike 1, spot 1, unit volatility, zero rate) evaluated on its expiry day. -/
def cfgExpiry : Config :=
  { option_type := "call", position_side := "Short", strike := 1, contract_size := 1,
    spot0 := 1, implied_vol := 1, r := 0, days_to_maturity := 0,
    scan_risk_factor := 0, min_margin_factor := 1, maintenance_margin_rate := 1/2,
    daily_return_mean := 0, daily_return_vol := 0, reference_equity := 1 }

/-- Configuration used for the claim-C3 counterexample: a long call. -/
def cfgLong : Config :=
  { option_type := "call", position_side := "Long", strike := 1, contract_size := 1,
    spot0 := 1, implied_vol := 1, r := 0, days_to_maturity := 30,
    scan_risk_factor := 0, min_margin_factor := 1, maintenance_margin_rate := 1/2,
    daily_return_mean := 0, daily_return_vol := 0, reference_equity := 1 }

end OptionSim

/-! ## Historical backtester (`invest_sim/backtester.py`)

`Backtester.run(price_data)` replays a strategy over historical prices.
Prices become a time-ordered list of rows (`sort_index` and the
missing-asset check against column names are the excluded I/O layer's
concern: the embedding receives the aligned, sorted table). The
contribution amount per period is a single scalar resolved before the loop
from the contribution plan and the date-inferred periods-per-year
(backtester.py lines 167-177); the embedding takes that resolved scalar
directly, since the dates feed nothing else in the loop. The strategy is a
rebalance function parameter, instantiated with `Strat.rebalance` for the
built-in variants; a `raise` inside it aborts the run. -/

namespace Backtest

open Strat

/-- Embedding of `np.cov(recent_returns.values.T)` for a window of return
rows: the sample covariance with denominator `len - 1`. -/
def sampleCov {n : ℕ} (rows : List (Fin (n + 1) → ℝ)) :
    Matrix (Fin (n + 1)) (Fin (n + 1)) ℝ :=
  let m := rows.length
  let mean := fun a => (rows.map (fun r => r a)).sum / (m : ℝ)
  Matrix.of fun a b => (rows.map (fun r => (r a - mean a) * (r b - mean b))).sum / ((m : ℝ) - 1)

/-- Embedding of `prices.pct_change().dropna()`: simple returns between
consecutive rows, the undefined first row dropped. -/
def pctChange {n : ℕ} (prices : List (Fin (n + 1) → ℝ)) : List (Fin (n + 1) → ℝ) :=
  (prices.zip prices.tail).map (fun pq => fun i => pq.2 i / pq.1 i - 1)

/-- Configuration of a backtest run, after normalization and contribution
resolution: `weights0` is `config.normalized_weights` in asset order and
`contribution_per_period` the scalar resolved on lines 167-177. -/
structure Config (n : ℕ) where
  initial_balance : ℝ
  rebalance_frequency : ℕ
  weights0 : Fin (n + 1) → ℝ
  contribution_per_period : ℝ

/-- Mutable state of the backtest loop: current per-asset dollar values,
current weights, and the accumulated history lists (appended to the end,
as the Python lists are). -/
structure LoopState (n : ℕ) where
  assetValues : Fin (n + 1) → ℝ
  weights : Fin (n + 1) → ℝ
  pvalues : List ℝ
  whistory : List (Fin (n + 1) → ℝ)
  rets : List ℝ

/-- One iteration of the backtest loop (backtester.py lines 180-212) at
index `i` with return row `r`: inject the contribution at current weights,
apply returns, sum to the portfolio value, rebalance when `(i+1)` is a
multiple of the frequency (handing the strategy the realized weights and a
trailing-window covariance when more than one period is available), and
append the new portfolio value, weights, and recorded period return
(`0.0` at `i = 0`, else `(pv - portfolio_values[-2])/portfolio_values[-2]`). -/
def btStep {n : ℕ} (cfg : Config n)
    (reb : (Fin (n + 1) → ℝ) → Option (Matrix (Fin (n + 1)) (Fin (n + 1)) ℝ) →
      Option (Fin (n + 1) → ℝ))
    (allReturns : List (Fin (n + 1) → ℝ)) (i : ℕ) (r : Fin (n + 1) → ℝ)
    (st : LoopState n) : Option (LoopState n) :=
  open Classical in
  let av1 := if 0 < cfg.contribution_per_period
    then fun j => st.assetValues j + cfg.contribution_per_period * st.weights j
    else st.assetValues
  let av2 := fun j => av1 j * (1 + r j)
  let pv := ∑ j, av2 j
  let prev := st.pvalues.getLastD 0
  let ret := if 0 < i then (pv - prev) / prev else (0 : ℝ)
  if (i + 1) % cfg.rebalance_frequency = 0 then
    let cw := if 0 < pv then (fun j => av2 j / pv) else st.weights
    let window := min 20 (i + 1)
    let covariance :=
      if 1 < window then some (sampleCov ((allReturns.drop (i + 1 - window)).take window))
      else none
    match reb cw covariance with
    | none => none
    | some w2 =>
        some ⟨fun j => pv * w2 j, w2, st.pvalues ++ [pv], st.whistory ++ [w2],
          st.rets ++ [ret]⟩
  else
    some ⟨av2, st.weights, st.pvalues ++ [pv], st.whistory ++ [st.weights],
      st.rets ++ [ret]⟩

/-- The backtest loop over the remaining return rows, starting at index `i`. -/
def btLoop {n : ℕ} (cfg : Config n)
    (reb : (Fin (n + 1) → ℝ) → Option (Matrix (Fin (n + 1)) (Fin (n + 1)) ℝ) →
      Option (Fin (n + 1) → ℝ))
    (allReturns : List (Fin (n + 1) → ℝ)) :
    List (Fin (n + 1) → ℝ) → ℕ → LoopState n → Option (LoopState n)
  | [], _, st => some st
  | r :: rest, i, st =>
      match btStep cfg reb allReturns i r st with
      | none => none
      | some st2 => btLoop cfg reb allReturns rest (i + 1) st2

/-- The `BacktestResult` fields the claims are about. -/
structure Result (n : ℕ) where
  portfolio_values : List ℝ
  weights_history : List (Fin (n + 1) → ℝ)
  returns : List ℝ

/-- Embedding of `Backtester.run` (lines 125-231): reject fewer than two
price rows, compute period returns, seed the histories with the initial
balance / initial weights / a first `0.0` return, run the loop, and package
the result. -/
def run {n : ℕ} (cfg : Config n)
    (reb : (Fin (n + 1) → ℝ) → Option (Matrix (Fin (n + 1)) (Fin (n + 1)) ℝ) →
      Option (Fin (n + 1) → ℝ))
    (prices : List (Fin (n + 1) → ℝ)) : Except String (Result n) :=
  if prices.length < 2 then .error "insufficient data"
  else
    let rets := pctChange prices
    let w0 := cfg.weights0
    let av0 := fun j => cfg.initial_balance * w0 j
    let st0 : LoopState n := ⟨av0, w0, [cfg.initial_balance], [w0], [0]⟩
    match btLoop cfg reb rets rets 0 st0 with
    | none => .error "strategy rebalance failed"
    | some st => .ok ⟨st.pvalues, st.whistory, st.rets⟩

/-- History-shape invariant of the backtest loop after processing indices
below `i`: lengths of the histories, the two leading zero returns, and the
recorded-return formula for later indices. -/
def RetInv {n : ℕ} (i : ℕ) (st : LoopState n) : Prop :=
  st.pvalues.length = i + 1 ∧ st.rets.length = i + 1 ∧
  st.rets.getD 0 0 = 0 ∧ (1 ≤ i → st.rets.getD 1 0 = 0) ∧
  (∀ t, 2 ≤ t → t ≤ i →
    st.rets.getD t 0 =
      (st.pvalues.getD t 0 - st.pvalues.getD (t - 1) 0) / st.pvalues.getD (t - 1) 0)

end Backtest

/-! ## Forward Monte Carlo simulator (`invest_sim/forward_simulator.py`)

`ForwardSimulator` converts annual asset parameters to monthly ones, then
runs `num_trials × (years*12)` sampled periods with contributions and
periodic rebalancing. The optional `input_model` override is a
`{dist_name, params}` descriptor whose parameter values may be scalars,
per-asset lists, or name-keyed maps; a falsy input model (Python `None` or
an empty dict) is `none` here. The strategy is passed as its
`initWeights` vector plus a rebalance function (the source accepts an
injected `Strategy` the same way); the seeded generator is the draw-stream
record of `Dist.RngStreams` threaded through `generate_returns` in source
order (asset-major within each period). -/

namespace Forward

open Dist

/-- A value in `input_model["params"]`: scalar, per-asset sequence, or
name-keyed map (`_select_param_value`, forward_simulator.py lines 198-213). -/
inductive PVal
  | scalar (x : ℝ)
  | perAsset (xs : List ℝ)
  | byName (m : List (String × ℝ))

/-- The `input_model` descriptor: `dist_name` defaults to "normal" when the
key is absent, `params` is the key-value mapping. -/
structure InputModel where
  dist_name : Option String := none
  params : List (String × PVal) := []

/-- The validated `SimulationConfig` fields the simulator reads, plus the
derived `periodic_contribution`. -/
structure SimConfig (n : ℕ) where
  years : ℕ
  initial_balance : ℝ
  num_trials : ℕ
  rebalance_frequency : ℕ
  expected_returns : Fin (n + 1) → ℝ
  volatilities : Fin (n + 1) → ℝ
  asset_names : Fin (n + 1) → String
  periodic_contribution : ℝ

/-- `ForwardSimulator.PERIODS_PER_YEAR`. -/
def PERIODS_PER_YEAR : ℕ := 12

/-- `_annual_to_periodic`: `(1+annual)^(1/12) - 1` (np.power is real
exponentiation). -/
def monthlyReturnMean {n : ℕ} (cfg : SimConfig n) (i : Fin (n + 1)) : ℝ :=
  (1 + cfg.expected_returns i) ^ ((1 : ℝ) / PERIODS_PER_YEAR) - 1

/-- `monthly_volatility = annual / sqrt(12)`. -/
def monthlyVolatility {n : ℕ} (cfg : SimConfig n) (i : Fin (n + 1)) : ℝ :=
  cfg.volatilities i / Real.sqrt PERIODS_PER_YEAR

/-- Embedding of `_select_param_value`: name-keyed maps must contain the
asset's name, sequences must match the asset count, scalars pass through. -/
def selectParamValue {n : ℕ} (cfg : SimConfig n) (v : PVal) (i : Fin (n + 1)) :
    Except String ℝ :=
  match v with
  | .byName m =>
      match m.lookup (cfg.asset_names i) with
      | none => .error "input model missing params for asset"
      | some x => .ok x
  | .perAsset xs =>
      if xs.length ≠ n + 1 then .error "input model sequence length must equal asset count"
      else .ok (xs.getD i 0)
  | .scalar x => .ok x

/-- Store a resolved scalar under a known parameter key. Keys
`generate_returns` never reads are carried in the Python dict but cannot
influence behaviour, so they are dropped; a scalar stored under
`historical_returns` becomes the one-element array `np.asarray` makes of
it. -/
def applyParam (p : Dist.Params) (key : String) (x : ℝ) : Dist.Params :=
  if key = "mean" then { p with mean := some x }
  else if key = "vol" then { p with vol := some x }
  else if key = "df" then { p with df := some x }
  else if key = "scale" then { p with scale := some x }
  else if key = "historical_returns" then { p with historical_returns := some [x] }
  else p

/-- Resolve each user parameter for asset `i` and overlay it on the base
parameters (the `resolved_params` loop of `_distribution_for_asset`). -/
def resolveUserParams {n : ℕ} (cfg : SimConfig n) (i : Fin (n + 1)) :
    List (String × PVal) → Dist.Params → Except String Dist.Params
  | [], p => .ok p
  | (k, v) :: rest, p =>
      match selectParamValue cfg v i with
      | .error e => .error e
      | .ok x => resolveUserParams cfg i rest (applyParam p k x)

/-- Embedding of `_distribution_for_asset` (lines 182-196): base monthly
mean/vol, overridden by the input model when one is supplied. -/
def distributionForAsset {n : ℕ} (cfg : SimConfig n) (im : Option InputModel)
    (i : Fin (n + 1)) : Except String (String × Dist.Params) :=
  let base : Dist.Params :=
    { mean := some (monthlyReturnMean cfg i), vol := some (monthlyVolatility cfg i) }
  match im with
  | none => .ok ("normal", base)
  | some m =>
      match resolveUserParams cfg i m.params base with
      | .error e => .error e
      | .ok p => .ok (m.dist_name.getD "normal", p)

/-- Sample one period's returns for the given assets in order, threading the
generator state through `generate_returns` calls exactly as the source's
per-asset loop does (lines 128-136). -/
def sampleAssets {n : ℕ} (cfg : SimConfig n) (im : Option InputModel)
    (rng : RngStreams) :
    List (Fin (n + 1)) → RngState →
      Except String (RngState × (Fin (n + 1) → List ℝ))
  | [], st => .ok (st, fun _ => [])
  | i :: rest, st =>
      match distributionForAsset cfg im i with
      | .error e => .error e
      | .ok (dist, p) =>
          match Dist.generate_returns dist cfg.num_trials p rng st with
          | .error e => .error e
          | .ok (samples, st2) =>
              match sampleAssets cfg im rng rest st2 with
              | .error e => .error e
              | .ok (st3, acc) => .ok (st3, Function.update acc i samples)

/-- Mutable state of the forward simulation loop: current target weights,
per-trial per-asset dollar values, generator cursor, the portfolio-value
column of each completed period, and the weights history. -/
structure FState (n : ℕ) where
  weights : Fin (n + 1) → ℝ
  av : ℕ → Fin (n + 1) → ℝ
  rng : RngState
  cols : List (List ℝ)
  whist : List (Fin (n + 1) → ℝ)

/-- One period of `ForwardSimulator.run` (lines 120-156) at step `s`:
contribution at current weights, per-asset sampling, growth, portfolio
column, and rebalancing (trial-average realized weights, sample covariance
of the period's returns when more than one trial) on multiples of the
rebalance frequency. -/
def fwdStep {n : ℕ} (cfg : SimConfig n) (im : Option InputModel) (rng : RngStreams)
    (reb : (Fin (n + 1) → ℝ) → Option (Matrix (Fin (n + 1)) (Fin (n + 1)) ℝ) →
      Option (Fin (n + 1) → ℝ))
    (s : ℕ) (st : FState n) : Except String (FState n) :=
  open Classical in
  let av1 := if 0 < cfg.periodic_contribution
    then fun k i => st.av k i + cfg.periodic_contribution * st.weights i
    else st.av
  match sampleAssets cfg im rng (List.finRange (n + 1)) st.rng with
  | .error e => .error e
  | .ok (rng2, rets) =>
      let ret := fun (i : Fin (n + 1)) (k : ℕ) => (rets i).getD k 0
      let av2 := fun k i => av1 k i * (1 + ret i k)
      let pv := fun k => ∑ i, av2 k i
      let col := (List.range cfg.num_trials).map pv
      if s % cfg.rebalance_frequency = 0 then
        let cw := fun k i => if 0 < pv k then av2 k i / pv k else 0
        let avg := fun i => (∑ k ∈ Finset.range cfg.num_trials, cw k i) / (cfg.num_trials : ℝ)
        let covariance :=
          if 1 < cfg.num_trials
          then some (Backtest.sampleCov ((List.range cfg.num_trials).map (fun k i => ret i k)))
          else none
        match reb avg covariance with
        | none => .error "strategy rebalance failed"
        | some w2 =>
            .ok ⟨w2, fun k i => pv k * w2 i, rng2, st.cols ++ [col], st.whist ++ [w2]⟩
      else .ok ⟨st.weights, av2, rng2, st.cols ++ [col], st.whist ++ [st.weights]⟩

/-- The simulation loop over the remaining period indices. -/
def fwdLoop {n : ℕ} (cfg : SimConfig n) (im : Option InputModel) (rng : RngStreams)
    (reb : (Fin (n + 1) → ℝ) → Option (Matrix (Fin (n + 1)) (Fin (n + 1)) ℝ) →
      Option (Fin (n + 1) → ℝ)) :
    List ℕ → FState n → Except String (FState n)
  | [], st => .ok st
  | s :: rest, st =>
      match fwdStep cfg im rng reb s st with
      | .error e => .error e
      | .ok st2 => fwdLoop cfg im rng reb rest st2

/-- The `ForwardSimulationResult` fields the claims are about. -/
structure FResult (n : ℕ) where
  timeline_years : List ℝ
  trajectories : List (List ℝ)
  weights_history : List (Fin (n + 1) → ℝ)

/-- Embedding of `ForwardSimulator.run` (lines 105-161): trajectories column
0 is the initial balance for every trial, the initial per-asset values are
`balance * weight`, and the loop fills one portfolio-value column per
period; the result matrix is trial-major. -/
def run {n : ℕ} (cfg : SimConfig n) (im : Option InputModel) (rng : RngStreams)
    (stratInit : Fin (n + 1) → ℝ)
    (reb : (Fin (n + 1) → ℝ) → Option (Matrix (Fin (n + 1)) (Fin (n + 1)) ℝ) →
      Option (Fin (n + 1) → ℝ)) : Except String (FResult n) :=
  let periods := cfg.years * PERIODS_PER_YEAR
  let timeline := (List.range (periods + 1)).map
    (fun i => (cfg.years : ℝ) * (i : ℝ) / (periods : ℝ))
  let w0 := stratInit
  let st0 : FState n := ⟨w0, fun _ i => cfg.initial_balance * w0 i, {}, [], [w0]⟩
  match fwdLoop cfg im rng reb ((List.range periods).map (fun j => j + 1)) st0 with
  | .error e => .error e
  | .ok st =>
      .ok ⟨timeline,
        (List.range cfg.num_trials).map
          (fun k => cfg.initial_balance :: st.cols.map (fun col => col.getD k 0)),
        st.whist⟩

/-- Concrete one-asset forward configuration used by witnesses. -/
def cfgFwd : SimConfig 0 :=
  { years := 1, initial_balance := 1, num_trials := 1, rebalance_frequency := 12,
    expected_returns := fun _ => 0, volatilities := fun _ => 1,
    asset_names := fun _ => "A", periodic_contribution := 0 }

end Forward

namespace Risk

theorem sorted_getD_le_getD {ss : List ℚ} (hss : ss.Sorted (· ≤ ·))
    {j k : ℕ} (hjk : j ≤ k) (hk : k < ss.length) :
    ss.getD j 0 ≤ ss.getD k 0 := by
  have hj : j < ss.length := lt_of_le_of_lt hjk hk
  rw [ss.getD_eq_getElem 0 hj, ss.getD_eq_getElem 0 hk]
  rcases eq_or_lt_of_le hjk with h | h
  · subst h; exact le_refl _
  · exact List.pairwise_iff_getElem.mp hss j k hj hk h

/-- Some sample is at or below the interpolated quantile, because the quantile
is at least the smallest order statistic. -/
theorem exists_le_quantile (samples : List ℚ) (level : ℚ)
    (hne : samples ≠ []) (h0 : 0 ≤ level) (h1 : level < 1) :
    ∃ x ∈ samples, x ≤ quantile samples level := by
  classical
  set ss := List.insertionSort (· ≤ ·) samples with hss_def
  have hperm : ss.Perm samples := List.perm_insertionSort _ _
  have hsorted : ss.Sorted (· ≤ ·) := List.sorted_insertionSort _ _
  have hlen : ss.length = samples.length := hperm.length_eq
  have hnpos : 0 < ss.length := by
    rw [hlen]
    exact List.length_pos.mpr hne
  set n := ss.length with hn
  set h : ℚ := level * ((n : ℚ) - 1) with hh
  have hn1 : (1 : ℚ) ≤ (n : ℚ) := by exact_mod_cast hnpos
  have hh0 : 0 ≤ h := mul_nonneg h0 (by linarith)
  have hhlt : h ≤ (n : ℚ) - 1 := by
    have : h ≤ 1 * ((n : ℚ) - 1) := by
      apply mul_le_mul_of_nonneg_right h1.le (by linarith)
    simpa using this
  set i : ℕ := (Int.floor h).toNat with hi_def
  have hfloor_nonneg : (0 : ℤ) ≤ Int.floor h := Int.floor_nonneg.mpr hh0
  have hicast : ((i : ℤ) : ℚ) = ((Int.floor h : ℤ) : ℚ) := by
    rw [hi_def]
    exact_mod_cast congrArg (fun z => ((z : ℤ) : ℚ)) (Int.toNat_of_nonneg hfloor_nonneg)
  have hile : (i : ℚ) ≤ h := by
    have := Int.floor_le h
    rw [show ((i : ℕ) : ℚ) = ((Int.floor h : ℤ) : ℚ) from by exact_mod_cast hicast]
    exact this
  have hfrac0 : 0 ≤ h - (i : ℚ) := by linarith
  have hin : i < n := by
    have : (i : ℚ) ≤ (n : ℚ) - 1 := le_trans hile hhlt
    have : (i : ℚ) < (n : ℚ) := by linarith
    exact_mod_cast this
  refine ⟨ss.getD 0 0, ?_, ?_⟩
  · have : ss.getD 0 0 ∈ ss := by
      rw [ss.getD_eq_getElem 0 hnpos]
      exact List.getElem_mem _
    exact hperm.mem_iff.mp this
  · show ss.getD 0 0 ≤ quantile samples level
    have hq : quantile samples level =
        ss.getD i 0 + (h - (i : ℚ)) * (ss.getD (i + 1) (ss.getD i 0) - ss.getD i 0) := by
      simp only [quantile]
    rw [hq]
    have hlo : ss.getD 0 0 ≤ ss.getD i 0 :=
      sorted_getD_le_getD hsorted (Nat.zero_le i) hin
    rcases lt_or_ge (i + 1) n with hsucc | hsucc
    · have hmono : ss.getD i 0 ≤ ss.getD (i + 1) 0 :=
        sorted_getD_le_getD hsorted (Nat.le_succ i) hsucc
      have hdd : ss.getD (i + 1) (ss.getD i 0) = ss.getD (i + 1) 0 := by
        rw [ss.getD_eq_getElem (ss.getD i 0) hsucc, ss.getD_eq_getElem 0 hsucc]
      rw [hdd]
      have hprod : 0 ≤ (h - (i : ℚ)) * (ss.getD (i + 1) 0 - ss.getD i 0) :=
        mul_nonneg hfrac0 (sub_nonneg.mpr hmono)
      linarith
    · have hdd : ss.getD (i + 1) (ss.getD i 0) = ss.getD i 0 := by
        apply List.getD_eq_default
        exact hsucc
      rw [hdd]
      have hz : ss.getD i 0 + (h - (i : ℚ)) * (ss.getD i 0 - ss.getD i 0) = ss.getD i 0 := by
        ring
      rw [hz]
      exact hlo

/-- Every element of the lower tail is at most the quantile, hence so is the
tail mean. -/
theorem tail_mean_le {s : List ℚ} {q : ℚ} (hne : s.filter (· ≤ q) ≠ []) :
    (s.filter (· ≤ q)).sum / ((s.filter (· ≤ q)).length : ℚ) ≤ q := by
  classical
  set tail := s.filter (· ≤ q) with htail
  have hlen : 0 < tail.length := List.length_pos.mpr hne
  have hq : ∀ x ∈ tail, x ≤ q := by
    intro x hx
    have := List.of_mem_filter hx
    exact of_decide_eq_true this
  have hsum : tail.sum ≤ (tail.length : ℚ) * q := by
    calc tail.sum ≤ tail.length • q := List.sum_le_card_nsmul tail q hq
    _ = (tail.length : ℚ) * q := by rw [nsmul_eq_mul]
  rw [div_le_iff₀ (by exact_mod_cast hlen)]
  linarith

/-- C7: for every finite sample of final values, every initial balance, and
every confidence level in (0,1), the conditional value at risk computed by
`compute_cvar` is at least the value at risk computed by `compute_var` on the
same inputs. -/
theorem cvar_ge_var (s : List ℚ) (B lvl : ℚ)
    (hne : s ≠ []) (h0 : 0 < lvl) (h1 : lvl < 1)
    (v c : ℚ) (hv : compute_var s B lvl = some v) (hc : compute_cvar s B lvl = some c) :
    v ≤ c := by
  classical
  have hcond : (0 < lvl ∧ lvl < 1) := ⟨h0, h1⟩
  rw [compute_var, if_neg hne, if_pos hcond, Option.some_inj] at hv
  rw [compute_cvar, if_neg hne, if_pos hcond, Option.some_inj] at hc
  set q := quantile s lvl with hq
  set tail := s.filter (· ≤ q) with htail
  have htne : tail ≠ [] := by
    obtain ⟨x, hxs, hxq⟩ := exists_le_quantile s lvl hne h0.le h1
    intro habs
    have : x ∈ tail := List.mem_filter.mpr ⟨hxs, decide_eq_true hxq⟩
    rw [habs] at this
    exact List.not_mem_nil x this
  have hlen : tail.length ≠ 0 := fun h => htne (List.length_eq_zero.mp h)
  have hmean : tail.sum / (tail.length : ℚ) ≤ q := tail_mean_le htne
  have hexp : (if tail.length ≠ 0 then tail.sum / (tail.length : ℚ) else q) =
      tail.sum / (tail.length : ℚ) := if_pos hlen
  rw [← hv, ← hc]
  simp only [← hq, ← htail, hexp]
  apply max_le_max le_rfl
  linarith

theorem compute_var_example : compute_var [(0 : ℚ), 10] 10 (1/2) = some 5 := by
  rw [compute_var, if_neg (show ¬([(0 : ℚ), 10] = []) by simp)]
  norm_num [quantile, List.insertionSort, List.orderedInsert]

theorem compute_cvar_example : compute_cvar [(0 : ℚ), 10] 10 (1/2) = some 10 := by
  rw [compute_cvar, if_neg (show ¬([(0 : ℚ), 10] = []) by simp)]
  norm_num [quantile, List.insertionSort, List.orderedInsert, List.filter]

/-- Witness for C7 at the sample `[0, 10]`, balance `10`, level `1/2`. -/
theorem cvar_ge_var_witness :
    ([ (0 : ℚ), 10] ≠ [] ∧ (0 : ℚ) < 1/2 ∧ (1 : ℚ)/2 < 1 ∧
      compute_var [(0 : ℚ), 10] 10 (1/2) = some 5 ∧
      compute_cvar [(0 : ℚ), 10] 10 (1/2) = some 10) ∧ (5 : ℚ) ≤ 10 := by
  refine ⟨⟨by simp, by norm_num, by norm_num, compute_var_example, compute_cvar_example⟩, ?_⟩
  exact cvar_ge_var [(0 : ℚ), 10] 10 (1/2) (by simp) (by norm_num) (by norm_num)
    5 10 compute_var_example compute_cvar_example

end Risk

namespace Dist

/-- C8 counterexample: `generate_returns "student_t"` with a supplied
`df = -1` raises, although the claim's list of error conditions (unknown
name; `normal` missing `mean`/`vol`; `empirical_bootstrap` missing or empty
`historical_returns`) does not cover this input. -/
theorem generate_returns_student_t_df_not_covered :
    isErr (generate_returns "student_t" 1 { df := some (-1) } zeroStreams {}) = true ∧
    ¬( ("student_t" ∉ ["normal", "student_t", "empirical_bootstrap"]) ∨
       ("student_t" = "normal" ∧
         ((Params.mk none none (some (-1)) none none).mean = none ∨
          (Params.mk none none (some (-1)) none none).vol = none)) ∨
       ("student_t" = "empirical_bootstrap" ∧
         ((Params.mk none none (some (-1)) none none).historical_returns = none ∨
          (Params.mk none none (some (-1)) none none).historical_returns = some [])) ) := by
  constructor
  · norm_num [generate_returns, isErr]
    decide
  · simp

/-- C8 (amended): `generate_returns` raises a configuration error and returns
no samples exactly when the distribution name is unknown, or `normal` is
missing `mean` or `vol`, or `student_t` resolves a non-positive `df` (a
supplied `df <= 0`), or `empirical_bootstrap` is missing `historical_returns`
or it is empty; it never silently substitutes a default for a required
parameter. -/
theorem generate_returns_error_iff (dist_name : String) (size : ℕ) (p : Params)
    (rng : RngStreams) (st : RngState) :
    isErr (generate_returns dist_name size p rng st) = true ↔
      ( (dist_name ∉ ["normal", "student_t", "empirical_bootstrap"]) ∨
        (dist_name = "normal" ∧ (p.mean = none ∨ p.vol = none)) ∨
        (dist_name = "student_t" ∧ p.df.getD 5 ≤ 0) ∨
        (dist_name = "empirical_bootstrap" ∧
          (p.historical_returns = none ∨ p.historical_returns = some [])) ) := by
  by_cases hn : dist_name = "normal"
  · subst hn
    rcases hm : p.mean with _ | m <;> rcases hv : p.vol with _ | v <;>
      simp [generate_returns, isErr, hm, hv]
  · by_cases ht : dist_name = "student_t"
    · subst ht
      by_cases hdf : p.df.getD 5 ≤ 0 <;>
        simp [generate_returns, isErr, hdf, hn, if_pos, if_neg]
    · by_cases hb : dist_name = "empirical_bootstrap"
      · subst hb
        rcases hh : p.historical_returns with _ | hist
        · simp [generate_returns, isErr, hh]
        · by_cases hlen : hist.length = 0
          · have : hist = [] := List.length_eq_zero.mp hlen
            subst this
            simp [generate_returns, isErr, hh]
          · have : hist ≠ [] := fun h => hlen (by simp [h])
            simp [generate_returns, isErr, hh, hlen, this]
      · simp [generate_returns, isErr, hn, ht, hb]

end Dist

namespace Strat

theorem normalizeW_bounds {n : ℕ} {w v : Fin (n + 1) → ℝ}
    (h : normalizeW w = some v) : ∀ i, 0 ≤ v i ∧ v i ≤ 1 := by
  intro i
  by_cases ht : (∑ j, w j) ≤ 0
  · simp [normalizeW, ht] at h
  · simp only [normalizeW, if_neg ht, Option.some_inj] at h
    subst h
    constructor
    · exact le_min (le_max_right _ 0) zero_le_one
    · exact min_le_right _ 1

theorem normalizeW_of_nonneg {n : ℕ} {w v : Fin (n + 1) → ℝ}
    (hw : ∀ i, 0 ≤ w i) (h : normalizeW w = some v) : GoodW v := by
  by_cases ht : (∑ j, w j) ≤ 0
  · simp [normalizeW, ht] at h
  · push_neg at ht
    simp only [normalizeW, if_neg (not_le.mpr ht), Option.some_inj] at h
    subst h
    have hclip : ∀ i, clip01 (w i / ∑ j, w j) = w i / ∑ j, w j := by
      intro i
      have h0 : 0 ≤ w i / ∑ j, w j := div_nonneg (hw i) ht.le
      have h1 : w i / ∑ j, w j ≤ 1 := by
        rw [div_le_one ht]
        exact Finset.single_le_sum (fun j _ => hw j) (Finset.mem_univ i)
      unfold clip01
      rw [max_eq_left h0, min_eq_left h1]
    constructor
    · intro i
      show 0 ≤ clip01 (w i / ∑ j, w j)
      rw [hclip i]
      exact div_nonneg (hw i) ht.le
    · show (∑ i, clip01 (w i / ∑ j, w j)) = 1
      rw [Finset.sum_congr rfl (fun i _ => hclip i), ← Finset.sum_div, div_self ht.ne']

theorem equalWeight_good {n : ℕ} : GoodW (fun _ : Fin (n + 1) => 1 / ((n : ℝ) + 1)) := by
  have hpos : (0 : ℝ) < (n : ℝ) + 1 := by positivity
  constructor
  · intro i
    positivity
  · rw [Finset.sum_const, Finset.card_univ, Fintype.card_fin, nsmul_eq_mul]
    push_cast
    field_simp

theorem targetVolatility_nonneg {n : ℕ} (c : Ctx n)
    (htv : ∀ v, c.targetVolCfg = some v → 0 < v) :
    0 ≤ targetVolatility c := by
  rcases hv : c.targetVolCfg with _ | v
  · simp only [targetVolatility, hv]
    exact Real.sqrt_nonneg _
  · simp only [targetVolatility, hv]
    by_cases h0 : v = 0
    · rw [if_pos h0]
      exact Real.sqrt_nonneg _
    · rw [if_neg h0]
      exact (htv v hv).le

/-- C1 counterexample: the adaptive strategy, fed the accepted non-negative
weight vector `[0.9]` with base `[1]` and threshold `0.2`, passes the input
through unchanged, so the returned vector sums to `0.9`, not 1. -/
theorem adaptive_passthrough_sum_ne_one :
    (0 : ℝ) ≤ 9/10 ∧
    (Strat.rebalance StratName.adaptive
        { base := fun _ => 1, vols := fun _ => 1, threshold := 1/5 }
        none (fun _ : Fin 1 => (9 : ℝ)/10)).map (fun w => ∑ i, w i) =
      some (9/10) ∧ (9 : ℝ)/10 ≠ 1 := by
  refine ⟨by norm_num, ?_, by norm_num⟩
  have hne : ¬ ∃ i : Fin 1, (1 : ℝ)/5 < |(fun _ : Fin 1 => (9 : ℝ)/10) i - (fun _ : Fin 1 => (1 : ℝ)) i| := by
    rintro ⟨i, hi⟩
    have : |(9 : ℝ)/10 - 1| = 1/10 := by
      rw [abs_sub_comm, abs_of_nonneg (by norm_num : (0 : ℝ) ≤ 1 - 9/10)]
      norm_num
    simp only at hi
    rw [this] at hi
    norm_num at hi
  rw [rebalance, adaptiveRebalance, if_neg hne]
  simp

/-- C1 (amended): on validated configs and non-negative accepted inputs,
every variant returns non-negative weights; all variants except the
adaptive pass-through and `min_variance` given a covariance matrix return
weights summing exactly to 1; the adaptive variant returns either the base
weights or the input unchanged; `min_variance` with a covariance stays in
`[0,1]` componentwise (after clipping) but its sum can exceed 1. -/
theorem rebalance_weights_good {n : ℕ} (c : Ctx n) (hc : ValidCtx c)
    (covariance : Option (Matrix (Fin (n + 1)) (Fin (n + 1)) ℝ))
    (cur : Fin (n + 1) → ℝ) (hcur : ∀ i, 0 ≤ cur i) :
    (∀ w, rebalance .fixed c covariance cur = some w → GoodW w) ∧
    (∀ w, rebalance .equal_weight c covariance cur = some w → GoodW w) ∧
    (∀ w, rebalance .risk_parity c covariance cur = some w → GoodW w) ∧
    (∀ w, rebalance .momentum c covariance cur = some w → GoodW w) ∧
    (∀ w, rebalance .mean_reversion c covariance cur = some w → GoodW w) ∧
    (∀ w, rebalance .target_risk c covariance cur = some w → GoodW w) ∧
    (∀ w, rebalance .min_variance c none cur = some w → GoodW w) ∧
    (∀ w, rebalance .min_variance c covariance cur = some w →
      ∀ i, 0 ≤ w i ∧ w i ≤ 1) ∧
    (∀ w, rebalance .adaptive c covariance cur = some w →
      ((∀ i, 0 ≤ w i) ∧ (w = c.base ∨ w = cur))) := by
  obtain ⟨hb0, hb1, hvols, htv, hthr, hrs⟩ := hc
  have heq : GoodW (fun _ : Fin (n + 1) => 1 / ((n : ℝ) + 1)) := equalWeight_good
  refine ⟨?_, ?_, ?_, ?_, ?_, ?_, ?_, ?_, ?_⟩
  · intro w hw
    rw [rebalance, fixedRebalance, Option.some_inj] at hw
    exact hw ▸ ⟨hb0, hb1⟩
  · intro w hw
    rw [rebalance, equalWeightRebalance, Option.some_inj] at hw
    exact hw ▸ heq
  · intro w hw
    simp only [rebalance, riskParityRebalance] at hw
    refine normalizeW_of_nonneg (fun i => ?_) hw
    have h1 : (0 : ℝ) < max (c.vols i) 1e-6 := lt_max_of_lt_left (hvols i)
    have h2 : (0 : ℝ) < ∑ j, 1 / max (c.vols j) 1e-6 := by
      apply Finset.sum_pos (fun j _ => ?_) Finset.univ_nonempty
      exact div_pos one_pos (lt_max_of_lt_left (hvols j))
    positivity
  · intro w hw
    simp only [rebalance, momentumRebalance] at hw
    exact normalizeW_of_nonneg hb0 hw
  · intro w hw
    simp only [rebalance, meanReversionRebalance] at hw
    set s := c.reversionSpeedCfg.getD 0.3 with hs_def
    have hs : 0 ≤ s ∧ s ≤ 1 := by
      rcases hrscfg : c.reversionSpeedCfg with _ | s0
      · rw [hs_def, hrscfg]
        norm_num

      · rw [hs_def, hrscfg]
        exact hrs s0 hrscfg
    refine normalizeW_of_nonneg (fun i => ?_) hw
    nlinarith [mul_nonneg (sub_nonneg.mpr hs.2) (hcur i), mul_nonneg hs.1 (hb0 i),
      hcur i, hb0 i]
  · intro w hw
    simp only [rebalance, targetRiskRebalance] at hw
    by_cases hcv : Real.sqrt (∑ i, (c.base i * c.vols i) ^ 2) ≤ targetVolatility c
    · rw [if_pos hcv, Option.some_inj] at hw
      exact hw ▸ ⟨hb0, hb1⟩
    · rw [if_neg hcv] at hw
      push_neg at hcv
      have htv0 : 0 ≤ targetVolatility c := targetVolatility_nonneg c htv
      have hcv0 : 0 < Real.sqrt (∑ i, (c.base i * c.vols i) ^ 2) := lt_of_le_of_lt htv0 hcv
      set cv := Real.sqrt (∑ i, (c.base i * c.vols i) ^ 2) with hcv_def
      set scale := targetVolatility c / cv with hscale_def
      have hsc0 : 0 ≤ scale := div_nonneg htv0 hcv0.le
      have hsc1 : scale < 1 := (div_lt_one hcv0).mpr hcv
      have hsum : (∑ i, c.base i * scale) = scale := by
        rw [← Finset.sum_mul, hb1, one_mul]
      have hres : 0 < 1 - ∑ i, c.base i * scale := by
        rw [hsum]; linarith
      rw [if_pos hres] at hw
      refine normalizeW_of_nonneg (fun i => ?_) hw
      by_cases hi : i = argminFin c.vols
      · subst hi
        rw [Function.update_same]
        have : 0 ≤ c.base (argminFin c.vols) * scale := mul_nonneg (hb0 _) hsc0
        linarith
      · rw [Function.update_noteq hi]
        exact mul_nonneg (hb0 i) hsc0
  · intro w hw
    simp only [rebalance, minVarianceRebalance, Option.some_inj] at hw
    exact hw ▸ heq
  · intro w hw
    rcases covariance with _ | S
    · simp only [rebalance, minVarianceRebalance, Option.some_inj] at hw
      intro i
      subst hw
      exact ⟨heq.1 i, by
        have h1 : (1 : ℝ) ≤ (n : ℝ) + 1 := by
          have : (0 : ℝ) ≤ (n : ℝ) := Nat.cast_nonneg n
          linarith
        rw [div_le_one (by linarith)]
        exact h1⟩
    · simp only [rebalance, minVarianceRebalance] at hw
      by_cases hu : IsUnit S.det
      · rw [if_pos hu] at hw
        exact normalizeW_bounds hw
      · rw [if_neg hu, Option.some_inj] at hw
        intro i
        subst hw
        refine ⟨heq.1 i, ?_⟩
        have h1 : (1 : ℝ) ≤ (n : ℝ) + 1 := by
          have : (0 : ℝ) ≤ (n : ℝ) := Nat.cast_nonneg n
          linarith
        rw [div_le_one (by linarith)]
        exact h1
  · intro w hw
    rw [rebalance, adaptiveRebalance] at hw
    by_cases hdev : ∃ i, c.threshold < |cur i - c.base i|
    · rw [if_pos hdev, Option.some_inj] at hw
      exact hw ▸ ⟨hb0, Or.inl rfl⟩
    · rw [if_neg hdev, Option.some_inj] at hw
      exact hw ▸ ⟨hcur, Or.inr rfl⟩

/-- Witness for the amended C1 at the one-asset context with base `[1]`,
volatility `[1]` and current weights `[1]`. -/
theorem rebalance_weights_good_witness :
    (ValidCtx ({ base := fun _ => 1, vols := fun _ => 1 } : Ctx 0) ∧
      (∀ i : Fin 1, (0 : ℝ) ≤ (fun _ : Fin 1 => (1 : ℝ)) i)) ∧
    (∀ w, rebalance .fixed ({ base := fun _ => 1, vols := fun _ => 1 } : Ctx 0) none
      (fun _ : Fin 1 => (1 : ℝ)) = some w → GoodW w) := by
  have hc : ValidCtx ({ base := fun _ => 1, vols := fun _ => 1 } : Ctx 0) := by
    refine ⟨fun i => zero_le_one, by simp, fun i => one_pos, ?_, by norm_num, ?_⟩
    · intro v hv
      simp at hv
    · intro s hs
      simp at hs
  have hcur : ∀ i : Fin 1, (0 : ℝ) ≤ (fun _ : Fin 1 => (1 : ℝ)) i := fun i => zero_le_one
  exact ⟨⟨hc, hcur⟩,
    (rebalance_weights_good ({ base := fun _ => 1, vols := fun _ => 1 } : Ctx 0) hc none
      (fun _ : Fin 1 => (1 : ℝ)) hcur).1⟩

end Strat

namespace OptionSim

theorem erf_strictMono : StrictMono erf := by
  intro a b hab
  have hcont : Continuous fun t : ℝ => Real.exp (-t ^ 2) :=
    Real.continuous_exp.comp ((continuous_pow 2).neg)
  have hint : ∀ u v : ℝ,
      IntervalIntegrable (fun t => Real.exp (-t ^ 2)) MeasureTheory.volume u v :=
    fun u v => hcont.intervalIntegrable u v
  have hpos : 0 < ∫ t in a..b, Real.exp (-t ^ 2) :=
    intervalIntegral.intervalIntegral_pos_of_pos (hint a b) (fun x => Real.exp_pos _) hab
  have hadd : (∫ t in (0 : ℝ)..a, Real.exp (-t ^ 2)) + ∫ t in a..b, Real.exp (-t ^ 2)
      = ∫ t in (0 : ℝ)..b, Real.exp (-t ^ 2) :=
    intervalIntegral.integral_add_adjacent_intervals (hint 0 a) (hint a b)
  have hc : 0 < 2 / Real.sqrt Real.pi := by
    have h := Real.sqrt_pos.mpr Real.pi_pos
    positivity
  unfold erf
  have hlt : (∫ t in (0 : ℝ)..a, Real.exp (-t ^ 2)) < ∫ t in (0 : ℝ)..b, Real.exp (-t ^ 2) := by
    linarith
  exact mul_lt_mul_of_pos_left hlt hc

theorem norm_cdf_strictMono : StrictMono norm_cdf := by
  intro a b hab
  have hdiv : a / Real.sqrt 2 < b / Real.sqrt 2 := by gcongr
  have herf := erf_strictMono hdiv
  unfold norm_cdf
  linarith

/-- Positivity of the at-the-money call price with unit spot/strike/vol and
zero rate, for any time argument the code can pass (the clamp keeps the
effective time positive). -/
theorem bs_price_call_atm_pos (T : ℝ) (hT : ¬ T ≤ 0) :
    0 < bs_price 1 1 T 0 1 "call" := by
  have hcall : pyLower "call" = "call" := by decide
  simp only [bs_price, bsTerms, hcall]
  rw [if_neg hT]
  rw [if_pos trivial]
  have hS1 : max (1 : ℝ) 1e-9 = 1 := by norm_num
  rw [hS1]
  set Ts := max T 1e-9 with hTs
  have hTs0 : 0 < Ts := lt_of_lt_of_le (by norm_num : (0 : ℝ) < 1e-9) (le_max_right _ _)
  have hsq : 0 < Real.sqrt Ts := Real.sqrt_pos.mpr hTs0
  have hd : (Real.log (1 / 1) + ((0 : ℝ) + 0.5 * 1 ^ 2) * Ts) / (1 * Real.sqrt Ts)
        - 1 * Real.sqrt Ts
      < (Real.log (1 / 1) + ((0 : ℝ) + 0.5 * 1 ^ 2) * Ts) / (1 * Real.sqrt Ts) := by
    nlinarith
  have hmono := norm_cdf_strictMono hd
  have hexp : Real.exp (-(0 : ℝ) * Ts) = 1 := by norm_num
  rw [hexp]
  nlinarith [hmono]

/-- C4 counterexample: `_option_price` clamps the remaining time at `1e-9`,
so with zero days remaining the recorded price of an at-the-money call is
the (strictly positive) Black-Scholes price at `T = 1e-9`, not the intrinsic
value `max(S-K, 0) = 0`. -/
theorem optionPrice_at_expiry_ne_intrinsic :
    optionPrice cfgExpiry 1 0 ≠ max ((1 : ℝ) - 1) 0 := by
  have h1 : optionPrice cfgExpiry 1 0 = bs_price 1 1 1e-9 0 1 (pyLower "call") := by
    simp only [optionPrice, cfgExpiry, Config.optionTypeL]
    norm_num
  have hcall : pyLower "call" = "call" := by decide
  rw [h1, hcall]
  have hpos := bs_price_call_atm_pos 1e-9 (by norm_num)
  have hmax : max ((1 : ℝ) - 1) 0 = 0 := by norm_num
  rw [hmax]
  exact ne_of_gt hpos

/-- C4 (amended): at every step `t` of an option margin path the recorded
option price is the Black-Scholes price at remaining time
`max(max((days_to_maturity - t)/365, 0), 1e-9)` with volatility clamped at
`1e-6`; `bs_price` itself degenerates to the exact intrinsic value at
`T = 0`, but the path never passes a non-positive time, so at expiry the
recorded price is the `T = 1e-9` Black-Scholes price rather than the exact
intrinsic value. -/
theorem pricePath_clamped_spec (c : Config) (z : ℕ → ℝ) (t : ℕ) :
    pricePath c z t =
      bs_price (spotPath c z t) c.strike
        (max (max (((c.days_to_maturity - (t : ℤ) : ℤ) : ℝ) / 365) 0) 1e-9)
        c.r (max c.implied_vol 1e-6) c.optionTypeL ∧
    (∀ S K r sigma : ℝ, ∀ ot : String, bs_price S K 0 r sigma ot =
      if pyLower ot = "call" then max (S - K) 0 else max (K - S) 0) := by
  constructor
  · rfl
  · intro S K r sigma ot
    simp only [bs_price]
    rw [if_pos le_rfl]

theorem findTrigger_some {c : Config} {z : ℕ → ℝ} {t0 fuel t : ℕ}
    (h : findTrigger c z t0 fuel = some t) :
    t0 ≤ t ∧ t < t0 + fuel ∧ trigger c z t ∧ ∀ s, t0 ≤ s → s < t → ¬ trigger c z s := by
  induction fuel generalizing t0 with
  | zero => simp [findTrigger] at h
  | succ n ih =>
    simp only [findTrigger] at h
    by_cases htr : trigger c z t0
    · rw [if_pos htr, Option.some_inj] at h
      subst h
      exact ⟨le_refl _, by omega, htr, fun s hs1 hs2 => absurd hs1 (by omega)⟩
    · rw [if_neg htr] at h
      obtain ⟨h1, h2, h3, h4⟩ := ih h
      refine ⟨by omega, by omega, h3, fun s hs1 hs2 => ?_⟩
      rcases eq_or_lt_of_le hs1 with rfl | hlt
      · exact htr
      · exact h4 s (by omega) hs2

theorem findTrigger_none {c : Config} {z : ℕ → ℝ} {t0 fuel : ℕ}
    (h : findTrigger c z t0 fuel = none) :
    ∀ s, t0 ≤ s → s < t0 + fuel → ¬ trigger c z s := by
  induction fuel generalizing t0 with
  | zero => intro s h1 h2; omega
  | succ n ih =>
    simp only [findTrigger] at h
    by_cases htr : trigger c z t0
    · rw [if_pos htr] at h
      exact absurd h (by simp)
    · rw [if_neg htr] at h
      intro s hs1 hs2
      rcases eq_or_lt_of_le hs1 with rfl | hlt
      · exact htr
      · exact ih h s (by omega) (by omega)

/-- C5: on a short-option single path, the reported liquidation day (when
present) is the first step `t >= 1` whose positive margin and recorded
margin ratio `equity/max(margin, 1e-8)` fall below the maintenance rate;
from that step on, the reported equity, margin and margin ratio are frozen
at their step-`t` values; with no such step, no liquidation is reported and
no step triggers. -/
theorem single_path_liquidation (c : Config) (z : ℕ → ℝ) (T : ℕ)
    (hshort : c.position_side = "Short") :
    (∀ t, liqDay c z T = some t →
      1 ≤ t ∧ t ≤ T ∧ trigger c z t ∧
      (∀ s, 1 ≤ s → s < t → ¬ trigger c z s) ∧
      (∀ s, t ≤ s → equityPath c z T s = equityRaw c z t ∧
        marginPath c z T s = marginRaw c z t ∧
        ratioPath c z T s = ratioRaw c z t)) ∧
    (liqDay c z T = none → ∀ s, 1 ≤ s → s ≤ T → ¬ trigger c z s) := by
  constructor
  · intro t ht
    have ht' : findTrigger c z 1 T = some t := by
      rw [liqDay, if_pos hshort] at ht
      exact ht
    obtain ⟨h1, h2, h3, h4⟩ := findTrigger_some ht'
    refine ⟨h1, by omega, h3, h4, fun s hs => ?_⟩
    have hmin : min s t = t := min_eq_right hs
    have hs0 : s ≠ 0 := by omega
    refine ⟨?_, ?_, ?_⟩
    · simp only [equityPath, ht]
      rw [hmin]
    · simp only [marginPath, ht]
      rw [hmin]
    · rw [ratioPath, if_pos hshort, if_neg hs0]
      simp only [ht]
      rw [hmin]
  · intro hnone s hs1 hs2
    have hn : findTrigger c z 1 T = none := by
      rw [liqDay, if_pos hshort] at hnone
      exact hnone
    exact findTrigger_none hn s hs1 (by omega)

/-- Witness for C5 at the concrete short configuration `cfgExpiry`, the zero
draw stream and horizon 0 (where the trigger scan is empty and the reported
liquidation day is `None`). -/
theorem single_path_liquidation_witness :
    cfgExpiry.position_side = "Short" ∧
    liqDay cfgExpiry (fun _ => 0) 0 = none ∧
    (liqDay cfgExpiry (fun _ => 0) 0 = none →
      ∀ s, 1 ≤ s → s ≤ 0 → ¬ trigger cfgExpiry (fun _ => 0) s) := by
  have hshort : cfgExpiry.position_side = "Short" := rfl
  have hnone : liqDay cfgExpiry (fun _ => 0) 0 = none := by
    rw [liqDay, if_pos hshort]
    rfl
  exact ⟨hshort, hnone,
    (single_path_liquidation cfgExpiry (fun _ => 0) 0 hshort).2⟩

theorem mcSpot_zero_eq (c : Config) (z : ℕ → ℝ) (T : ℕ) :
    ∀ t, mcSpot c z T 0 t = spotPath c z t := by
  intro t
  induction t with
  | zero => rfl
  | succ n ih => simp only [mcSpot, spotPath, ih, Nat.zero_mul, Nat.zero_add]

theorem mcPrice_zero_eq (c : Config) (z : ℕ → ℝ) (T : ℕ) :
    ∀ t, mcPrice c z T 0 t = pricePath c z t := by
  intro t
  rw [mcPrice, pricePath, mcSpot_zero_eq]

theorem mcEquityRaw_zero_eq (c : Config) (z : ℕ → ℝ) (T : ℕ) :
    ∀ t, mcEquityRaw c z T 0 t = equityRaw c z t := by
  intro t
  induction t with
  | zero => rfl
  | succ n ih =>
      simp only [mcEquityRaw, equityRaw, ih, mcPrice_zero_eq]

theorem mcMarginRaw_zero_eq (c : Config) (z : ℕ → ℝ) (T : ℕ) :
    ∀ t, mcMarginRaw c z T 0 t = marginRaw c z t := by
  intro t
  simp only [mcMarginRaw, marginRaw, mcPrice_zero_eq, mcSpot_zero_eq]

theorem mcTrigger_zero_iff (c : Config) (z : ℕ → ℝ) (T : ℕ) (t : ℕ) :
    mcTrigger c z T 0 t ↔ trigger c z t := by
  rw [mcTrigger, trigger, mcMarginRaw_zero_eq, mcEquityRaw_zero_eq]

theorem mcRatioRaw_zero_eq (c : Config) (z : ℕ → ℝ) (T : ℕ) (t : ℕ) :
    mcRatioRaw c z T 0 t = ratioRaw c z t := by
  rw [mcRatioRaw, ratioRaw, mcMarginRaw_zero_eq, mcEquityRaw_zero_eq]

theorem mcFindTrigger_zero_eq (c : Config) (z : ℕ → ℝ) (T : ℕ) :
    ∀ fuel t0, mcFindTrigger c z T 0 t0 fuel = findTrigger c z t0 fuel := by
  intro fuel
  induction fuel with
  | zero => intro t0; rfl
  | succ n ih =>
      intro t0
      simp only [mcFindTrigger, findTrigger]
      by_cases htr : trigger c z t0
      · rw [if_pos ((mcTrigger_zero_iff c z T t0).mpr htr), if_pos htr]
      · rw [if_neg (fun hcon => htr ((mcTrigger_zero_iff c z T t0).mp hcon)), if_neg htr, ih]

theorem mcLiqOpt_zero_eq (c : Config) (z : ℕ → ℝ) (T : ℕ) :
    mcLiqOpt c z T 0 = liqDay c z T := by
  rw [mcLiqOpt, liqDay]
  by_cases hside : c.position_side = "Short"
  · rw [if_pos hside, if_pos hside, mcFindTrigger_zero_eq]
  · rw [if_neg hside, if_neg hside]

/-- C3 (amended): with the same seed, path 0 of `run_monte_carlo` matches
`run_single_path` in its spot, option price and equity series everywhere and
in its margin and margin-ratio series at every step `t >= 1` (for short
positions); but at `t = 0` the batch reports margin `0` and ratio `inf`
where the single path computes the actual margin and ratio (or NaN), long
rows report `inf` where the single path reports NaN, and the batch
liquidation day is the single-path day with `None` encoded as `T` (so a
liquidation at exactly `t = T` is indistinguishable from none). -/
theorem mc_path0_refinement (c : Config) (z : ℕ → ℝ) (T : ℕ) :
    (∀ t, mcSpot c z T 0 t = spotPath c z t) ∧
    (∀ t, mcPrice c z T 0 t = pricePath c z t) ∧
    (∀ s, mcEquity c z T 0 s = equityPath c z T s) ∧
    (∀ s, 1 ≤ s → mcMargin c z T 0 s = marginPath c z T s) ∧
    (c.position_side = "Short" → ∀ s, 1 ≤ s → mcRatio c z T 0 s = ratioPath c z T s) ∧
    mcMargin c z T 0 0 = 0 ∧ mcRatio c z T 0 0 = MRatio.inf ∧
    mcLiqDay c z T 0 = (liqDay c z T).getD T := by
  refine ⟨mcSpot_zero_eq c z T, mcPrice_zero_eq c z T, ?_, ?_, ?_, rfl, rfl, ?_⟩
  · intro s
    rw [mcEquity, equityPath, mcLiqOpt_zero_eq]
    rcases hld : liqDay c z T with _ | t
    · simp only [mcEquityRaw_zero_eq]
    · simp only [mcEquityRaw_zero_eq]
  · intro s hs
    have hs0 : s ≠ 0 := by omega
    rw [mcMargin, if_neg hs0, marginPath, mcLiqOpt_zero_eq]
    rcases hld : liqDay c z T with _ | t
    · simp only [mcMarginRaw_zero_eq]
    · simp only [mcMarginRaw_zero_eq]
  · intro hside s hs
    have hs0 : s ≠ 0 := by omega
    rw [mcRatio, if_neg hs0, if_pos hside, ratioPath, if_pos hside, if_neg hs0,
      mcLiqOpt_zero_eq]
    rcases hld : liqDay c z T with _ | t
    · simp only [mcRatioRaw_zero_eq]
    · simp only [mcRatioRaw_zero_eq]
  · rw [mcLiqDay, mcLiqOpt_zero_eq]

/-- C3 counterexample: for a long position, `run_single_path` reports a
margin-ratio series of NaN while path 0 of `run_monte_carlo` reports inf
(the batch array is initialised to `np.inf` and the long branch stores
`np.inf`), so the batch path-0 series is not equal to the single-path
series. -/
theorem mc_single_ratio_sentinel_mismatch :
    ratioPath cfgLong (fun _ => 0) 1 0 = MRatio.nan ∧
    mcRatio cfgLong (fun _ => 0) 1 0 0 = MRatio.inf ∧
    MRatio.nan ≠ MRatio.inf := by
  refine ⟨?_, rfl, by decide⟩
  rw [ratioPath, if_neg (by decide : ¬ cfgLong.position_side = "Short")]

/-- Witness for the amended C3 at the long configuration, zero draws,
horizon 1, step 1. -/
theorem mc_path0_refinement_witness :
    (1 ≤ 1 ∧
      mcMargin cfgLong (fun _ => 0) 1 0 1 = marginPath cfgLong (fun _ => 0) 1 1) ∧
    mcSpot cfgLong (fun _ => 0) 1 0 = spotPath cfgLong (fun _ => 0) := by
  have h := mc_path0_refinement cfgLong (fun _ => 0) 1
  exact ⟨⟨le_refl 1, h.2.2.2.1 1 (le_refl 1)⟩, funext h.1⟩

end OptionSim

namespace Backtest

open Strat

theorem btStep_shape {n : ℕ} {cfg : Config n} {reb} {allR : List (Fin (n + 1) → ℝ)}
    {i : ℕ} {r : Fin (n + 1) → ℝ} {st st2 : LoopState n}
    (h : btStep cfg reb allR i r st = some st2) :
    ∃ pv wnew, st2.pvalues = st.pvalues ++ [pv] ∧
      st2.rets = st.rets ++
        [if 0 < i then (pv - st.pvalues.getLastD 0) / st.pvalues.getLastD 0 else 0] ∧
      st2.whistory = st.whistory ++ [wnew] := by
  classical
  simp only [btStep] at h
  by_cases hreb : (i + 1) % cfg.rebalance_frequency = 0
  · rw [if_pos hreb] at h
    rcases hr : reb _ _ with _ | w2
    · rw [hr] at h
      exact absurd h (by simp)
    · rw [hr] at h
      rw [Option.some_inj] at h
      subst h
      exact ⟨_, w2, rfl, rfl, rfl⟩
  · rw [if_neg hreb] at h
    rw [Option.some_inj] at h
    subst h
    exact ⟨_, st.weights, rfl, rfl, rfl⟩

theorem getLastD_eq_getD {l : List ℝ} (h : l ≠ []) :
    l.getLastD 0 = l.getD (l.length - 1) 0 := by
  rw [List.getLastD_eq_getLast?, List.getLast?_eq_getElem?, List.getD_eq_getElem?_getD]

theorem btStep_inv {n : ℕ} {cfg : Config n} {reb} {allR : List (Fin (n + 1) → ℝ)}
    {i : ℕ} {r : Fin (n + 1) → ℝ} {st st2 : LoopState n}
    (h : btStep cfg reb allR i r st = some st2) (hinv : RetInv i st) :
    RetInv (i + 1) st2 := by
  obtain ⟨hP, hR, hR0, hR1, hformula⟩ := hinv
  obtain ⟨pv, wnew, hpv, hrets, _⟩ := btStep_shape h
  have hPne : st.pvalues ≠ [] := by
    intro habs
    rw [habs] at hP
    simp at hP
  have hlast : st.pvalues.getLastD 0 = st.pvalues.getD i 0 := by
    rw [getLastD_eq_getD hPne, hP]
    simp
  have hgetP : ∀ t, t ≤ i → st2.pvalues.getD t 0 = st.pvalues.getD t 0 := by
    intro t ht
    rw [hpv, List.getD_append]
    omega
  have hgetPnew : st2.pvalues.getD (i + 1) 0 = pv := by
    rw [hpv, List.getD_append_right st.pvalues [pv] 0 (i + 1) (by omega)]
    simp [hP]
  have hgetR : ∀ t, t ≤ i → st2.rets.getD t 0 = st.rets.getD t 0 := by
    intro t ht
    rw [hrets, List.getD_append]
    omega
  have hgetRnew : st2.rets.getD (i + 1) 0 =
      if 0 < i then (pv - st.pvalues.getLastD 0) / st.pvalues.getLastD 0 else 0 := by
    rw [hrets, List.getD_append_right st.rets _ 0 (i + 1) (by omega)]
    simp [hR]
  refine ⟨by rw [hpv]; simp [hP], by rw [hrets]; simp [hR], ?_, ?_, ?_⟩
  · rw [hgetR 0 (by omega)]
    exact hR0
  · intro _
    rcases Nat.eq_zero_or_pos i with rfl | hi
    · rw [hgetRnew]
      simp
    · rw [hgetR 1 (by omega)]
      exact hR1 hi
  · intro t h2 hti
    rcases Nat.lt_or_ge t (i + 1) with hlt | hge
    · have ht : t ≤ i := by omega
      have ht1 : t - 1 ≤ i := by omega
      rw [hgetR t ht, hgetP t ht, hgetP (t - 1) ht1]
      exact hformula t h2 ht
    · have ht : t = i + 1 := by omega
      subst ht
      have hi : 0 < i := by omega
      rw [hgetRnew, if_pos hi, hgetPnew]
      have : i + 1 - 1 = i := by omega
      rw [this, hgetP i (le_refl i), hlast]

theorem btLoop_inv {n : ℕ} (cfg : Config n) (reb) (allR : List (Fin (n + 1) → ℝ)) :
    ∀ (rows : List (Fin (n + 1) → ℝ)) (i : ℕ) (st stf : LoopState n),
      btLoop cfg reb allR rows i st = some stf → RetInv i st →
      RetInv (i + rows.length) stf := by
  intro rows
  induction rows with
  | nil =>
      intro i st stf h hinv
      simp only [btLoop, Option.some_inj] at h
      subst h
      simpa using hinv
  | cons r rest ih =>
      intro i st stf h hinv
      simp only [btLoop] at h
      rcases hs : btStep cfg reb allR i r st with _ | st2
      · rw [hs] at h
        exact absurd h (by simp)
      · rw [hs] at h
        have h2 := ih (i + 1) st2 stf h (btStep_inv hs hinv)
        have : i + 1 + rest.length = i + (rest.length + 1) := by omega
        rw [this] at h2
        simpa using h2

theorem pctChange_length {n : ℕ} (prices : List (Fin (n + 1) → ℝ)) :
    (pctChange prices).length = prices.length - 1 := by
  rw [pctChange, List.length_map, List.length_zip, List.length_tail]
  omega

/-- C10: in every completed backtest the recorded returns series starts with
two zeros — index 0 is seeded with `0.0` and the first loop iteration
records `0.0` instead of the realized first-period return — while for
`t >= 2` the recorded return is `(pv[t]-pv[t-1])/pv[t-1]`, i.e.
`pv[t]/pv[t-1] - 1` whenever `pv[t-1]` is nonzero. -/
theorem backtest_returns_first_two_zero {n : ℕ} (cfg : Config n) (reb)
    (prices : List (Fin (n + 1) → ℝ)) (res : Result n)
    (h : run cfg reb prices = .ok res) :
    res.returns.getD 0 0 = 0 ∧ res.returns.getD 1 0 = 0 ∧
    res.returns.length = prices.length ∧ 2 ≤ res.returns.length ∧
    (∀ t, 2 ≤ t → t < res.returns.length →
      res.returns.getD t 0 =
        (res.portfolio_values.getD t 0 - res.portfolio_values.getD (t - 1) 0) /
          res.portfolio_values.getD (t - 1) 0) ∧
    (∀ t, 2 ≤ t → t < res.returns.length → res.portfolio_values.getD (t - 1) 0 ≠ 0 →
      res.returns.getD t 0 =
        res.portfolio_values.getD t 0 / res.portfolio_values.getD (t - 1) 0 - 1) := by
  classical
  simp only [run] at h
  by_cases hlen : prices.length < 2
  · rw [if_pos hlen] at h
    exact absurd h (by simp)
  · rw [if_neg hlen] at h
    rcases hloop : btLoop cfg reb (pctChange prices) (pctChange prices) 0
        ⟨fun j => cfg.initial_balance * cfg.weights0 j, cfg.weights0,
          [cfg.initial_balance], [cfg.weights0], [0]⟩ with _ | st
    · rw [hloop] at h
      exact absurd h (by simp)
    · rw [hloop] at h
      rw [Except.ok.injEq] at h
      have hinv0 : RetInv 0 (⟨fun j => cfg.initial_balance * cfg.weights0 j, cfg.weights0,
          [cfg.initial_balance], [cfg.weights0], [0]⟩ : LoopState n) := by
        refine ⟨rfl, rfl, rfl, ?_, ?_⟩
        · intro habs
          omega
        · intro t ht1 ht2
          omega
      have hinv := btLoop_inv cfg reb (pctChange prices) (pctChange prices) 0 _ st hloop hinv0
      rw [pctChange_length] at hinv
      obtain ⟨hP, hR, hR0, hR1, hformula⟩ := hinv
      have hres : res.returns = st.rets ∧ res.portfolio_values = st.pvalues := by
        rw [← h]
        exact ⟨rfl, rfl⟩
      have hlen2 : 2 ≤ prices.length := by omega
      have hRlen : res.returns.length = prices.length := by
        rw [hres.1, hR]
        omega
      refine ⟨?_, ?_, hRlen, by omega, ?_, ?_⟩
      · rw [hres.1]
        exact hR0
      · rw [hres.1]
        exact hR1 (by omega)
      · intro t h2 hti
        rw [hres.1, hres.2]
        exact hformula t h2 (by omega)
      · intro t h2 hti hnz
        rw [hres.1, hres.2]
        rw [hres.2] at hnz
        rw [hformula t h2 (by omega), sub_div, div_self hnz]

theorem fin1_sum (f : Fin 1 → ℝ) : ∑ i, f i = f 0 :=
  Fin.sum_univ_one f

theorem normalizeW_const_one : normalizeW (fun _ : Fin 1 => (1 : ℝ)) = some (fun _ => 1) := by
  simp [normalizeW, clip01]

theorem normalizeW_ratio_one {w : Fin 1 → ℝ} (hw : w 0 ≠ 0) :
    normalizeW (fun i => w i / ∑ j, w j) = some (fun _ => 1) := by
  have hsum : (∑ j, w j) = w 0 := fin1_sum w
  have heq : (fun i : Fin 1 => w i / ∑ j, w j) = fun _ => (1 : ℝ) := by
    funext i
    have hi : i = 0 := Fin.fin_one_eq_zero i
    rw [hi, hsum, div_self hw]
  rw [heq]
  exact normalizeW_const_one

/-- Every built-in strategy variant, fed the single-asset weight vector
`[1]` with base `[1]`, returns `[1]` whatever the covariance argument. -/
theorem rebalance_one_asset (name : StratName) (c : Strat.Ctx 0)
    (hbase : c.base = fun _ => 1) (hthr : 0 ≤ c.threshold)
    (htv : ∀ v, c.targetVolCfg = some v → 0 < v)
    (covariance : Option (Matrix (Fin 1) (Fin 1) ℝ)) :
    Strat.rebalance name c covariance (fun _ => 1) = some (fun _ => 1) := by
  cases name with
  | fixed =>
      simp only [Strat.rebalance, fixedRebalance, hbase]
  | target_risk =>
      simp only [Strat.rebalance, targetRiskRebalance]
      by_cases hcv : Real.sqrt (∑ i, (c.base i * c.vols i) ^ 2) ≤ targetVolatility c
      · rw [if_pos hcv, hbase]
      · rw [if_neg hcv]
        push_neg at hcv
        have htv0 : 0 ≤ targetVolatility c := targetVolatility_nonneg c htv
        have hcv0 : 0 < Real.sqrt (∑ i, (c.base i * c.vols i) ^ 2) :=
          lt_of_le_of_lt htv0 hcv
        set cv := Real.sqrt (∑ i, (c.base i * c.vols i) ^ 2) with hcv_def
        set scale := targetVolatility c / cv with hscale_def
        have hsc1 : scale < 1 := (div_lt_one hcv0).mpr hcv
        have hsum : (∑ i, c.base i * scale) = scale := by
          rw [fin1_sum]
          rw [hbase]
          norm_num
        have hres : 0 < 1 - ∑ i, c.base i * scale := by
          rw [hsum]
          linarith
        rw [if_pos hres]
        have hadj : Function.update (fun i => c.base i * scale) (argminFin c.vols)
            ((fun i => c.base i * scale) (argminFin c.vols) + (1 - ∑ i, c.base i * scale))
            = fun _ : Fin 1 => (1 : ℝ) := by
          funext i
          have hi : i = argminFin c.vols := by
            rw [Fin.fin_one_eq_zero i, Fin.fin_one_eq_zero (argminFin c.vols)]
          rw [hi, Function.update_same, hsum, hbase]
          norm_num
        rw [hadj]
        exact normalizeW_const_one
  | adaptive =>
      simp only [Strat.rebalance, adaptiveRebalance, hbase]
      rw [if_neg]
      rintro ⟨i, hi⟩
      simp only [sub_self, abs_zero] at hi
      exact absurd hi (not_lt.mpr hthr)
  | equal_weight =>
      simp only [Strat.rebalance, equalWeightRebalance]
      congr 1
      funext i
      norm_num
  | risk_parity =>
      simp only [Strat.rebalance, riskParityRebalance]
      apply normalizeW_ratio_one
      have h1 : (0 : ℝ) < max (c.vols 0) 1e-6 :=
        lt_max_of_lt_right (by norm_num)
      positivity
  | min_variance =>
      rcases covariance with _ | S
      · simp only [Strat.rebalance, minVarianceRebalance]
        congr 1
        funext i
        norm_num
      · simp only [Strat.rebalance, minVarianceRebalance]
        by_cases hu : IsUnit S.det
        · rw [if_pos hu]
          apply normalizeW_ratio_one
          have hdet : S.det ≠ 0 := IsUnit.ne_zero hu
          have hmv : S⁻¹.mulVec (fun _ => (1 : ℝ)) 0 = S.det⁻¹ := by
            rw [Matrix.inv_def, Matrix.adjugate_fin_one]
            simp [Matrix.mulVec, Matrix.dotProduct, Ring.inverse_eq_inv]
          rw [hmv]
          exact inv_ne_zero hdet
        · rw [if_neg hu]
          congr 1
          funext i
          norm_num
  | momentum =>
      simp only [Strat.rebalance, momentumRebalance, hbase]
      exact normalizeW_const_one
  | mean_reversion =>
      simp only [Strat.rebalance, meanReversionRebalance, hbase]
      have heq : (fun i : Fin 1 => (fun _ : Fin 1 => (1 : ℝ)) i +
          ((fun _ : Fin 1 => (1 : ℝ)) i - (fun _ : Fin 1 => (1 : ℝ)) i) *
            c.reversionSpeedCfg.getD 0.3) = fun _ : Fin 1 => (1 : ℝ) := by
        funext i
        ring
      rw [heq]
      exact normalizeW_const_one

/-- One backtest step over a single asset with weights `[1]`, zero
contribution, and a strategy returning `[1]`: asset value and portfolio
value get multiplied by `1 + r`, weights stay `[1]`. -/
theorem btStep_one_asset (cfg : Config 0)
    (reb : (Fin 1 → ℝ) → Option (Matrix (Fin 1) (Fin 1) ℝ) → Option (Fin 1 → ℝ))
    (allR : List (Fin 1 → ℝ)) (i : ℕ) (rr : Fin 1 → ℝ) (st : LoopState 0) (v : ℝ)
    (hcpp : cfg.contribution_per_period = 0)
    (hreb : ∀ cov, reb (fun _ => 1) cov = some (fun _ => 1))
    (hw : st.weights = fun _ => 1) (hav : st.assetValues = fun _ => v) :
    btStep cfg reb allR i rr st = some ⟨fun _ => v * (1 + rr 0), fun _ => 1,
      st.pvalues ++ [v * (1 + rr 0)], st.whistory ++ [fun _ => 1],
      st.rets ++ [if 0 < i then (v * (1 + rr 0) - st.pvalues.getLastD 0) /
        st.pvalues.getLastD 0 else 0]⟩ := by
  classical
  simp only [btStep, hcpp, hav, hw]
  rw [if_neg (lt_irrefl (0 : ℝ))]
  have hav2 : (fun j : Fin 1 => v * (1 + rr j)) = fun _ : Fin 1 => v * (1 + rr 0) := by
    funext j
    rw [Fin.fin_one_eq_zero j]
  have hpv : (∑ j : Fin 1, v * (1 + rr j)) = v * (1 + rr 0) := by
    rw [fin1_sum]
  simp only [hpv]
  by_cases hmod : (i + 1) % cfg.rebalance_frequency = 0
  · rw [if_pos hmod]
    have hcw : (if 0 < v * (1 + rr 0) then (fun j : Fin 1 => v * (1 + rr j) / (v * (1 + rr 0)))
        else fun _ : Fin 1 => (1 : ℝ)) = fun _ : Fin 1 => (1 : ℝ) := by
      by_cases hpv0 : 0 < v * (1 + rr 0)
      · rw [if_pos hpv0]
        funext j
        rw [Fin.fin_one_eq_zero j, div_self (ne_of_gt hpv0)]
      · rw [if_neg hpv0]
    rw [hcw, hreb]
    refine congrArg some ?_
    congr 1
    funext j
    ring
  · rw [if_neg hmod]
    congr 1
    rw [hav2]

/-- C9: a Backtester over one asset with prices `[100, 110, 99]`, zero
contributions, and any built-in strategy and rebalance frequency completes:
both period returns `+0.10` and `-0.10` are applied sequentially and the
final portfolio value is exactly `initial_balance * 1.10 * 0.90`. -/
theorem backtest_scenario (name : StratName) (c : Strat.Ctx 0) (freq : ℕ) (B : ℝ)
    (hbase : c.base = fun _ => 1) (hthr : 0 ≤ c.threshold)
    (htv : ∀ v, c.targetVolCfg = some v → 0 < v) :
    (run ⟨B, freq, fun _ => 1, 0⟩
        (fun cur covariance => Strat.rebalance name c covariance cur)
        [fun _ => 100, fun _ => 110, fun _ => 99]).map
      (fun res => res.portfolio_values.getLastD 0) = .ok (B * (11/10) * (9/10)) ∧
    pctChange [fun _ : Fin 1 => (100 : ℝ), fun _ => 110, fun _ => 99] =
      [fun _ => 1/10, fun _ => -(1/10)] := by
  have hreb : ∀ covariance,
      (fun cur covariance => Strat.rebalance name c covariance cur)
        (fun _ : Fin 1 => (1 : ℝ)) covariance = some (fun _ => 1) :=
    fun covariance => rebalance_one_asset name c hbase hthr htv covariance
  have hpct : pctChange [fun _ : Fin 1 => (100 : ℝ), fun _ => 110, fun _ => 99] =
      [fun _ => 1/10, fun _ => -(1/10)] := by
    simp only [pctChange, List.tail_cons, List.zip_cons_cons, List.zip_nil_right,
      List.map_cons, List.map_nil]
    congr 1
    · funext i
      norm_num
    · congr 1
      funext i
      norm_num
  refine ⟨?_, hpct⟩
  simp only [run]
  rw [if_neg (by norm_num : ¬ ([fun _ : Fin 1 => (100 : ℝ), fun _ => 110,
    fun _ => 99] : List (Fin 1 → ℝ)).length < 2)]
  rw [hpct]
  simp only [btLoop]
  rw [btStep_one_asset ⟨B, freq, fun _ => 1, 0⟩ _ _ 0 (fun _ => 1/10) _ (B * 1)
    rfl hreb rfl (by funext j; rfl)]
  simp only [btLoop]
  rw [btStep_one_asset ⟨B, freq, fun _ => 1, 0⟩ _ _ 1 (fun _ => -(1/10)) _
    (B * 1 * (1 + (1 : ℝ)/10)) rfl hreb rfl (by funext j; rfl)]
  simp only [btLoop]
  simp only [Except.map, List.getLastD_concat]
  norm_num

/-- Witness for C9 with the fixed strategy at frequency 1 and balance 1. -/
theorem backtest_scenario_witness :
    ((fun _ : Fin 1 => (1 : ℝ)) = fun _ => 1) ∧ (0 : ℝ) ≤ 1/20 ∧
    (run (⟨1, 1, fun _ => 1, 0⟩ : Config 0)
        (fun cur covariance => Strat.rebalance .fixed
          (⟨fun _ => 1, fun _ => 1, none, 1/20, none⟩ : Strat.Ctx 0) covariance cur)
        [fun _ => 100, fun _ => 110, fun _ => 99]).map
      (fun res => res.portfolio_values.getLastD 0) = .ok ((1 : ℝ) * (11/10) * (9/10)) := by
  refine ⟨rfl, by norm_num, ?_⟩
  exact (backtest_scenario .fixed ⟨fun _ => 1, fun _ => 1, none, 1/20, none⟩ 1 1 rfl
    (by norm_num) (by intro v hv; simp at hv)).1

/-- Witness for C10 over a two-row price table with an identity strategy. -/
theorem backtest_returns_witness :
    (run (⟨1, 2, fun _ => 1, 0⟩ : Config 0) (fun cw _ => some cw)
        [fun _ => (100 : ℝ), fun _ => 110]).map
      (fun res => (res.returns.getD 0 0, res.returns.getD 1 0)) = .ok ((0 : ℝ), (0 : ℝ)) := by
  obtain ⟨res, hres⟩ : ∃ res, run (⟨1, 2, fun _ => 1, 0⟩ : Config 0) (fun cw _ => some cw)
      [fun _ => (100 : ℝ), fun _ => 110] = .ok res := by
    simp only [run]
    rw [if_neg (by norm_num : ¬ ([fun _ : Fin 1 => (100 : ℝ), fun _ => 110] :
      List (Fin 1 → ℝ)).length < 2)]
    have hpct : pctChange [fun _ : Fin 1 => (100 : ℝ), fun _ => 110] =
        [fun _ => (110 : ℝ)/100 - 1] := by
      simp only [pctChange, List.tail_cons, List.zip_cons_cons, List.zip_nil_right,
        List.map_cons, List.map_nil]
    rw [hpct]
    simp only [btLoop]
    rw [btStep_one_asset ⟨1, 2, fun _ => 1, 0⟩ _ _ 0 (fun _ => (110 : ℝ)/100 - 1) _
      ((1 : ℝ) * 1) rfl (fun _ => rfl) rfl (by funext j; rfl)]
    simp only [btLoop]
    exact ⟨_, rfl⟩
  have h := backtest_returns_first_two_zero _ _ _ _ hres
  rw [hres]
  simp only [Except.map]
  rw [h.1, h.2.1]

end Backtest

namespace Forward

open Dist

theorem fwdStep_cols {n : ℕ} {cfg : SimConfig n} {im : Option InputModel}
    {rng : RngStreams} {reb} {s : ℕ} {st st2 : FState n}
    (h : fwdStep cfg im rng reb s st = .ok st2) :
    ∃ col, st2.cols = st.cols ++ [col] := by
  classical
  simp only [fwdStep] at h
  cases hs : sampleAssets cfg im rng (List.finRange (n + 1)) st.rng with
  | error e =>
      rw [hs] at h
      exact absurd h (by simp)
  | ok pr =>
      obtain ⟨rng2, rets⟩ := pr
      rw [hs] at h
      simp only at h
      by_cases hmod : s % cfg.rebalance_frequency = 0
      · rw [if_pos hmod] at h
        cases hr : reb _ _ with
        | none =>
            rw [hr] at h
            exact absurd h (by simp)
        | some w2 =>
            rw [hr] at h
            rw [Except.ok.injEq] at h
            exact ⟨_, by rw [← h]⟩
      · rw [if_neg hmod] at h
        rw [Except.ok.injEq] at h
        exact ⟨_, by rw [← h]⟩

theorem fwdLoop_cols {n : ℕ} (cfg : SimConfig n) (im : Option InputModel)
    (rng : RngStreams) (reb) :
    ∀ (steps : List ℕ) (st stf : FState n),
      fwdLoop cfg im rng reb steps st = .ok stf →
      stf.cols.length = st.cols.length + steps.length := by
  intro steps
  induction steps with
  | nil =>
      intro st stf h
      simp only [fwdLoop, Except.ok.injEq] at h
      subst h
      simp
  | cons s rest ih =>
      intro st stf h
      simp only [fwdLoop] at h
      cases hs : fwdStep cfg im rng reb s st with
      | error e =>
          rw [hs] at h
          exact absurd h (by simp)
      | ok st2 =>
          rw [hs] at h
          obtain ⟨col, hcol⟩ := fwdStep_cols hs
          have h2 := ih st2 stf h
          rw [hcol] at h2
          simp only [List.length_append, List.length_cons, List.length_nil] at h2
          simp only [List.length_cons]
          omega

/-- C2: every result returned by `ForwardSimulator.run` has a trajectories
matrix of shape `(num_trials, years*12+1)` whose column 0 is the initial
balance in every trial row. -/
theorem forward_shape {n : ℕ} (cfg : SimConfig n) (im : Option InputModel)
    (rng : RngStreams) (stratInit : Fin (n + 1) → ℝ) (reb) (res : FResult n)
    (h : run cfg im rng stratInit reb = .ok res) :
    res.trajectories.length = cfg.num_trials ∧
    (∀ row ∈ res.trajectories, row.length = cfg.years * 12 + 1) ∧
    (∀ row ∈ res.trajectories, row.getD 0 0 = cfg.initial_balance) := by
  simp only [run] at h
  cases hl : fwdLoop cfg im rng reb
      ((List.range (cfg.years * PERIODS_PER_YEAR)).map (fun j => j + 1))
      ⟨stratInit, fun _ i => cfg.initial_balance * stratInit i, {}, [], [stratInit]⟩ with
  | error e =>
      rw [hl] at h
      exact absurd h (by simp)
  | ok st =>
      rw [hl] at h
      rw [Except.ok.injEq] at h
      have hcols : st.cols.length = cfg.years * PERIODS_PER_YEAR := by
        have := fwdLoop_cols cfg im rng reb _ _ _ hl
        simpa using this
      refine ⟨?_, ?_, ?_⟩
      · rw [← h]
        simp
      · intro row hrow
        rw [← h] at hrow
        simp only [List.mem_map] at hrow
        obtain ⟨k, _, hk⟩ := hrow
        rw [← hk]
        simp only [List.length_cons, List.length_map, hcols, PERIODS_PER_YEAR]
      · intro row hrow
        rw [← h] at hrow
        simp only [List.mem_map] at hrow
        obtain ⟨k, _, hk⟩ := hrow
        rw [← hk]
        rfl

theorem generate_returns_normal_ok (size : ℕ) (m v : ℝ) (p : Dist.Params)
    (hm : p.mean = some m) (hv : p.vol = some v) (rng : RngStreams) (st : RngState) :
    Dist.generate_returns "normal" size p rng st =
      .ok ((List.range size).map (fun k => m + v * rng.gauss (st.gauss + k)),
        { st with gauss := st.gauss + size }) := by
  simp [Dist.generate_returns, hm, hv]

theorem sampleAssets_none_ok {n : ℕ} (cfg : SimConfig n) (rng : RngStreams) :
    ∀ (l : List (Fin (n + 1))) (st : RngState),
      ∃ out, sampleAssets cfg none rng l st = .ok out := by
  intro l
  induction l with
  | nil =>
      intro st
      exact ⟨_, rfl⟩
  | cons i rest ih =>
      intro st
      simp only [sampleAssets, distributionForAsset]
      rw [generate_returns_normal_ok cfg.num_trials _ _ _ rfl rfl rng st]
      obtain ⟨out2, h2⟩ := ih ({ st with gauss := st.gauss + cfg.num_trials })
      simp only [h2]
      exact ⟨_, rfl⟩

theorem fwdStep_none_ok {n : ℕ} (cfg : SimConfig n) (rng : RngStreams) (reb)
    (hreb : ∀ cw covariance, ∃ w, reb cw covariance = some w) (s : ℕ) (st : FState n) :
    ∃ st2, fwdStep cfg none rng reb s st = .ok st2 := by
  classical
  simp only [fwdStep]
  obtain ⟨⟨rng2, rets⟩, hs⟩ := sampleAssets_none_ok cfg rng (List.finRange (n + 1)) st.rng
  rw [hs]
  simp only
  by_cases hmod : s % cfg.rebalance_frequency = 0
  · rw [if_pos hmod]
    obtain ⟨w2, hw2⟩ := hreb _ _
    rw [hw2]
    exact ⟨_, rfl⟩
  · rw [if_neg hmod]
    exact ⟨_, rfl⟩

theorem fwdLoop_none_ok {n : ℕ} (cfg : SimConfig n) (rng : RngStreams) (reb)
    (hreb : ∀ cw covariance, ∃ w, reb cw covariance = some w) :
    ∀ (steps : List ℕ) (st : FState n),
      ∃ stf, fwdLoop cfg none rng reb steps st = .ok stf := by
  intro steps
  induction steps with
  | nil =>
      intro st
      exact ⟨st, rfl⟩
  | cons s rest ih =>
      intro st
      simp only [fwdLoop]
      obtain ⟨st2, hs⟩ := fwdStep_none_ok cfg rng reb hreb s st
      rw [hs]
      exact ih st2

theorem run_none_ok {n : ℕ} (cfg : SimConfig n) (rng : RngStreams)
    (stratInit : Fin (n + 1) → ℝ) (reb)
    (hreb : ∀ cw covariance, ∃ w, reb cw covariance = some w) :
    ∃ res, run cfg none rng stratInit reb = .ok res := by
  simp only [run]
  obtain ⟨stf, hl⟩ := fwdLoop_none_ok cfg rng reb hreb
    ((List.range (cfg.years * PERIODS_PER_YEAR)).map (fun j => j + 1))
    ⟨stratInit, fun _ i => cfg.initial_balance * stratInit i, {}, [], [stratInit]⟩
  rw [hl]
  exact ⟨_, rfl⟩

/-- Witness for C2 at a one-asset, one-trial, one-year configuration with
the default input model and an always-succeeding strategy. -/
theorem forward_shape_witness :
    (run cfgFwd none Dist.zeroStreams (fun _ => 1) (fun _ _ => some (fun _ => 1))).map
      (fun res => (res.trajectories.length, (res.trajectories.getD 0 []).getD 0 0)) =
    .ok (1, (1 : ℝ)) := by
  obtain ⟨res, hres⟩ := run_none_ok cfgFwd Dist.zeroStreams (fun _ => 1)
    (fun _ _ => some (fun _ => 1)) (fun _ _ => ⟨_, rfl⟩)
  obtain ⟨h1, h2, h3⟩ := forward_shape cfgFwd none Dist.zeroStreams (fun _ => 1)
    (fun _ _ => some (fun _ => 1)) res hres
  rw [hres]
  simp only [Except.map]
  have hmem : res.trajectories.getD 0 [] ∈ res.trajectories := by
    have hpos : 0 < res.trajectories.length := by
      rw [h1]
      norm_num [cfgFwd]
    rw [res.trajectories.getD_eq_getElem [] hpos]
    exact List.getElem_mem _
  rw [h1, h3 _ hmem]
  rfl

/-- C6: two `ForwardSimulator` runs constructed from identical configs,
identical input models and the same integer seed draw identical generator
streams, hence produce identical trajectory matrices. The seeded numpy
generator is modelled as a pure seed-indexed family of draw streams, which
is exactly the reproducibility contract of `np.random.default_rng(seed)`. -/
theorem forward_deterministic {n : ℕ} (family : ℕ → RngStreams) (cfg : SimConfig n)
    (im : Option InputModel) (stratInit : Fin (n + 1) → ℝ) (reb)
    (seed1 seed2 : ℕ) (hseed : seed1 = seed2) :
    (run cfg im (family seed1) stratInit reb).map FResult.trajectories =
    (run cfg im (family seed2) stratInit reb).map FResult.trajectories := by
  rw [hseed]

/-- Witness for C6 with seed 5 on the concrete configuration. -/
theorem forward_deterministic_witness :
    (5 = 5) ∧
    ((run cfgFwd none ((fun _ : ℕ => Dist.zeroStreams) 5) (fun _ => 1)
        (fun _ _ => some (fun _ => 1))).map FResult.trajectories =
      (run cfgFwd none ((fun _ : ℕ => Dist.zeroStreams) 5) (fun _ => 1)
        (fun _ _ => some (fun _ => 1))).map FResult.trajectories) :=
  ⟨rfl, forward_deterministic (fun _ => Dist.zeroStreams) cfgFwd none (fun _ => 1)
    (fun _ _ => some (fun _ => 1)) 5 5 rfl⟩

end Forward

end InvestSim
